import Mathlib

/-
Formal model of the `python-domain-equations` repository (package `domain_equations`).

Python strings are modelled as `List Char` (`Str`), Python `dict`s as association
lists with in-place update (`insertA`), Python `set`s of type descriptors as lists
deduplicated by fully qualified class name, and a raised `ValueError` as the
`validationError` constructor of the `Res` result monad.

The external term algebra (`category_equations`, a separate package that is not
part of this repository) is modelled from the specification as a tagged
expression tree evaluated by a structural fold that emits edges.
-/

abbrev Str := List Char

/-- Python `re.match(r'[a-z][a-z_]*', s)`: `re.match` anchors only at the start,
so it succeeds iff `s` begins with one lowercase letter; later characters are
unconstrained. This is the check `naming.py` actually performs. -/
def matchesIdentifierPrefix : Str → Bool
  | [] => false
  | c :: _ => 'a' ≤ c && c ≤ 'z'

/-- Full match of the pattern `[a-z][a-z_]*`: first character a lowercase
letter, all remaining characters lowercase letters or underscores. This is the
validation rule stated by the specification (not the one the code performs). -/
def matchesIdentifierFull : Str → Bool
  | [] => false
  | c :: rest => ('a' ≤ c && c ≤ 'z') && rest.all (fun d => ('a' ≤ d && d ≤ 'z') || d = '_')

/-- Python `word.split("_")` (split on every underscore, keeping empty pieces). -/
def splitOnUnderscore : Str → List Str
  | [] => [[]]
  | c :: rest =>
    if c = '_' then [] :: splitOnUnderscore rest
    else
      match splitOnUnderscore rest with
      | [] => [[c]]
      | h :: t => (c :: h) :: t

/-- Result of a Python call that may raise `ValueError`. -/
inductive Res (α : Type) where
  | ok (a : α)
  | validationError (msg : Str)
deriving DecidableEq, Repr

instance : Monad Res where
  pure := .ok
  bind r f :=
    match r with
    | .ok a => f a
    | .validationError m => .validationError m

/-- Association-list lookup, modelling Python `dict.get`. -/
def lookupA {β : Type} (k : Str) : List (Str × β) → Option β
  | [] => none
  | (k', v) :: t => if k' = k then some v else lookupA k t

/-- Association-list insert, modelling Python `dict.__setitem__`: replace the
value in place if the key is present, else append the new binding. -/
def insertA {β : Type} (k : Str) (v : β) : List (Str × β) → List (Str × β)
  | [] => [(k, v)]
  | (k', v') :: t => if k' = k then (k', v) :: t else (k', v') :: insertA k v t

/-- `naming.TypeDescriptor`: a fully qualified class name, split into the
optional module prefix (`_module_name`) and the bare name (`_class_name`). -/
structure TypeDescriptor where
  module_name : Option Str
  class_name_raw : Str
deriving DecidableEq, Repr

/-- `TypeDescriptor.class_name`: bare name prefixed with `module.` when a
module is set. -/
def TypeDescriptor.class_name (t : TypeDescriptor) : Str :=
  (match t.module_name with
   | some m => m ++ ['.']
   | none => []) ++ t.class_name_raw

/-- `TypeDescriptor.moduleless_class_name`. -/
def TypeDescriptor.moduleless_class_name (t : TypeDescriptor) : Str :=
  t.class_name_raw

/-- `naming.Naming` (extends `TypeDescriptor`). -/
structure Naming extends TypeDescriptor where
  value_name : Str
  plural_value_name : Str
  docstring_name : Str
deriving DecidableEq, Repr

def Naming.class_name (n : Naming) : Str :=
  n.toTypeDescriptor.class_name

/-- `Naming.capitalize`: empty word unchanged, else first character upper-cased. -/
def Naming.capitalize : Str → Str
  | [] => []
  | c :: rest => c.toUpper :: rest

/-- `Naming.camel_case`: split on underscores, capitalize each piece, concatenate. -/
def Naming.camel_case (word : Str) : Str :=
  ((splitOnUnderscore word).map Naming.capitalize).flatten

/-- `Naming.plural`: the default pluralization rule of `naming.py`.
Mirrors the source exactly: `word[-1] in ['x','s']` appends `es`; for words of
length at least two ending in `y`, a vowel before the `y` appends `s` and a
non-vowel yields `word[:-1] + "es"` (the trailing `y` is dropped); `sh`/`ch`
append `es`; everything else appends `s`. The `[]` case stands for the
`IndexError` Python would raise on `word[-1]`; `plural` is only applied to
validated, hence nonempty, names. -/
def Naming.plural (word : Str) : Str :=
  match word.reverse with
  | [] => word ++ ['s']
  | last :: rest =>
    if last = 'x' || last = 's' then word ++ ['e', 's']
    else
      match rest with
      | [] => word ++ ['s']
      | second :: _ =>
        if last = 'y' then
          if second = 'a' || second = 'e' || second = 'i' || second = 'o' || second = 'u' then
            word ++ ['s']
          else
            word.dropLast ++ ['e', 's']
        else if (second = 's' && last = 'h') || (second = 'c' && last = 'h') then
          word ++ ['e', 's']
        else
          word ++ ['s']

/-- `Naming.__init__(name, plural, module_name)`: validates `name` (and the
explicit `plural` when given) with `re.match`, then derives all name forms. -/
def Naming.make (name : Str) (plural : Option Str) (module_name : Option Str) : Res Naming :=
  if !matchesIdentifierPrefix name then
    .validationError "name should be a non empty lowercase string matching [a-z][a-z_]*".toList
  else if plural.any (fun p => !matchesIdentifierPrefix p) then
    .validationError "name plural be a non empty lowercase string matching [a-z][a-z_]*".toList
  else
    .ok
      { module_name := module_name
        class_name_raw := Naming.camel_case name
        value_name := name
        plural_value_name :=
          match plural with
          | some p => p
          | none => Naming.plural name
        docstring_name := name.map (fun c => if c = '_' then ' ' else c) }

/-- `naming.ContainerNaming` (extends `Naming`): wraps an item naming. -/
structure ContainerNaming extends Naming where
  item_class_name : Str
deriving DecidableEq, Repr

def ContainerNaming.class_name (c : ContainerNaming) : Str :=
  c.toTypeDescriptor.class_name

/-- `ContainerNaming.__init__(naming, module_name)`: its own name is the item
value name suffixed with `_container`; records the item class name. -/
def ContainerNaming.make (naming : Naming) (module_name : Option Str) : Res ContainerNaming :=
  match Naming.make (naming.value_name ++ "_container".toList) none module_name with
  | .ok n => .ok { toNaming := n, item_class_name := naming.class_name }
  | .validationError m => .validationError m

/-- A value whose runtime class is `TypeDescriptor`, `Naming` or
`ContainerNaming`; Python code dispatches on `type(x)` between exactly these. -/
inductive Entry where
  | td (d : TypeDescriptor)
  | naming (n : Naming)
  | container (c : ContainerNaming)
deriving DecidableEq, Repr

def Entry.class_name : Entry → Str
  | .td d => d.class_name
  | .naming n => n.class_name
  | .container c => c.class_name

/-- `type(x) == TypeDescriptor` (exact class test, subclasses excluded). -/
def Entry.isPlainTypeDescriptor : Entry → Bool
  | .td _ => true
  | _ => false

def Entry.moduleless_class_name : Entry → Str
  | .td d => d.moduleless_class_name
  | .naming n => n.toTypeDescriptor.moduleless_class_name
  | .container c => c.toTypeDescriptor.moduleless_class_name

def Entry.module_name : Entry → Option Str
  | .td d => d.module_name
  | .naming n => n.toTypeDescriptor.module_name
  | .container c => c.toTypeDescriptor.module_name

/-- `value_name` of an entry. A plain `TypeDescriptor` has no such attribute
(Python would raise `AttributeError`); the default `[]` is never reached by the
modelled call sites, which only apply this to `Naming`-like entries. -/
def Entry.value_name : Entry → Str
  | .td _ => []
  | .naming n => n.value_name
  | .container c => c.value_name

def Entry.plural_value_name : Entry → Str
  | .td _ => []
  | .naming n => n.plural_value_name
  | .container c => c.plural_value_name

/-- Sort a list of strings ascending, modelling Python `list.sort()` on `str`
keys (which are pairwise distinct at every call site, so any correct sort
produces the same list). -/
def sortStr (l : List Str) : List Str :=
  List.insertionSort (fun a b => a ≤ b) l

/-- Sort entries ascending by fully qualified class name, modelling
`sort(key=lambda c: c.class_name)` on lists whose class names are pairwise
distinct. -/
def sortByClassName (l : List Entry) : List Entry :=
  List.insertionSort (fun a b => a.class_name ≤ b.class_name) l

/-- `namedproperty.PropertyList`: a Python `set` of type descriptors whose
equality and hashing are by fully qualified class name, modelled as the list of
added elements deduplicated by class name. -/
structure PropertyList where
  elems : List Entry
deriving DecidableEq, Repr

/-- `PropertyList.add`: Python `set.add` keeps the already-present element when
an equal one (same class name) exists. -/
def PropertyList.add (pl : PropertyList) (naming : Entry) : PropertyList :=
  if pl.elems.any (fun e => e.class_name = naming.class_name) then pl
  else ⟨pl.elems ++ [naming]⟩

/-- `PropertyList.properties`: the members as a list sorted by class name. -/
def PropertyList.properties (pl : PropertyList) : List Entry :=
  sortByClassName pl.elems

/-- `namedproperty.NamedProperty`: one naming paired with an optional
sub-property list (`None` = no declared sub-properties). -/
structure NamedProperty where
  naming : Entry
  property_list : Option PropertyList
deriving DecidableEq, Repr

/-- `NamedProperty.properties`: `[]` when the list is `None`, else the sorted
member list. -/
def NamedProperty.properties (np : NamedProperty) : List Entry :=
  match np.property_list with
  | none => []
  | some pl => pl.properties

/-- `namedproperty.Module` (named `DomainModule` here because Mathlib already
declares `Module`): a module name, the namings grouped under it, and
the full node list used as a class-name lookup table. -/
structure DomainModule where
  module_name : Option Str
  property_list : PropertyList
  used_named_properties : List NamedProperty
deriving DecidableEq, Repr

/-- `Module.get_named_property`: lookup in the dict built from
`used_named_properties`; on duplicate class names Python `dict` keeps the last
pair, hence the search over the reversed list. -/
def DomainModule.get_named_property (m : DomainModule) (class_name : Str) : Option NamedProperty :=
  m.used_named_properties.reverse.find? (fun np => np.naming.class_name = class_name)

/-- `Module.properties`: the member entries sorted by class name. -/
def DomainModule.properties (m : DomainModule) : List Entry :=
  m.property_list.properties

/-- `property_graph.PropertyGraph` state: the two dictionaries keyed by fully
qualified class name. -/
structure PropertyGraph where
  properties_by_class_name : List (Str × PropertyList)
  namings_by_class_name : List (Str × Entry)
deriving DecidableEq, Repr

/-- The state `PropertyGraph.clear` (also `__init__`) establishes: both
dictionaries empty. -/
def PropertyGraph.cleared : PropertyGraph :=
  ⟨[], []⟩

/-- The factory `N` (`naming_getter`): build a `Naming`, register it under its
class name (overwriting any present entry), and return the leaf name the
wrapped term will carry (`value_name` without a module, else `class_name`). -/
def PropertyGraph.naming_getter (g : PropertyGraph) (name : Str) (plural : Option Str)
    (module_name : Option Str) : Res (PropertyGraph × Str) :=
  match Naming.make name plural module_name with
  | .validationError m => .validationError m
  | .ok naming =>
    let g' : PropertyGraph :=
      { g with namings_by_class_name :=
          insertA naming.class_name (.naming naming) g.namings_by_class_name }
    match naming.toTypeDescriptor.module_name with
    | none => .ok (g', naming.value_name)
    | some _ => .ok (g', naming.class_name)

/-- The factory `R` (`repeated`): build the item `Naming` and a
`ContainerNaming` over it, register the container under its class name
(overwriting any present entry), and return the container leaf name. -/
def PropertyGraph.repeated (g : PropertyGraph) (name : Str) (container_module : Option Str)
    (item_module : Option Str) : Res (PropertyGraph × Str) :=
  match Naming.make name none item_module with
  | .validationError m => .validationError m
  | .ok naming =>
    match ContainerNaming.make naming container_module with
    | .validationError m => .validationError m
    | .ok container =>
      let g' : PropertyGraph :=
        { g with namings_by_class_name :=
            insertA container.class_name (.container container) g.namings_by_class_name }
      match container_module with
      | none => .ok (g', container.value_name)
      | some _ => .ok (g', container.class_name)

/-- The factory `T` (`buildin_getter`): build a plain `TypeDescriptor` (no
validation) and register it under its class name (overwriting any present
entry). -/
def PropertyGraph.buildin_getter (g : PropertyGraph) (class_name_arg : Str)
    (module_name : Option Str) : PropertyGraph × Str :=
  let naming : TypeDescriptor := ⟨module_name, class_name_arg⟩
  ({ g with namings_by_class_name :=
      insertA naming.class_name (.td naming) g.namings_by_class_name },
   naming.class_name)

/-- `PropertyGraph._update_naming`: look the raw name up first; if absent,
build a `Naming` from it and look its class name up; only insert when that is
also absent (first registration wins on this path). -/
def PropertyGraph.update_naming (g : PropertyGraph) (name : Str) :
    Res (PropertyGraph × Entry) :=
  match lookupA name g.namings_by_class_name with
  | some found => .ok (g, found)
  | none =>
    match Naming.make name none none with
    | .validationError m => .validationError m
    | .ok naming =>
      match lookupA naming.class_name g.namings_by_class_name with
      | none =>
        .ok ({ g with namings_by_class_name :=
                insertA naming.class_name (.naming naming) g.namings_by_class_name },
             .naming naming)
      | some found => .ok (g, found)

/-- `PropertyGraph._connect`: the edge callback. Registers both endpoints and
appends the sink to the source's `PropertyList`. -/
def PropertyGraph.connect (g : PropertyGraph) (source_name sink_name : Str) :
    Res PropertyGraph :=
  match g.update_naming source_name with
  | .validationError m => .validationError m
  | .ok (g1, source) =>
    match g1.update_naming sink_name with
    | .validationError m => .validationError m
    | .ok (g2, sink) =>
      let component_list :=
        (lookupA source.class_name g2.properties_by_class_name).getD ⟨[]⟩
      let component_list := component_list.add sink
      .ok { g2 with properties_by_class_name :=
              insertA source.class_name component_list g2.properties_by_class_name }

/-- Run the sequence of `connect` callbacks one evaluation pass produces. -/
def PropertyGraph.runEdges (g : PropertyGraph) : List (Str × Str) → Res PropertyGraph
  | [] => .ok g
  | e :: rest =>
    match g.connect e.1 e.2 with
    | .validationError m => .validationError m
    | .ok g' => g'.runEdges rest

/-- In the source, every value stored in `properties_by_class_name` is a
`PropertyList` (the only write is in `_connect`), so the runtime test
`type(v) != Naming` in `get_properties_from` holds for every entry. -/
def isNamingValue (_v : PropertyList) : Bool :=
  false

/-- `PropertyGraph.properties`: class names sorted ascending; entries whose
runtime class is exactly `TypeDescriptor` are skipped; each remaining entry is
paired with its adjacency list (or `None`). -/
def PropertyGraph.propertiesList (g : PropertyGraph) : List NamedProperty :=
  let keys := sortStr (g.namings_by_class_name.map Prod.fst)
  keys.filterMap fun class_name =>
    match lookupA class_name g.namings_by_class_name with
    | none => none
    | some naming =>
      if naming.isPlainTypeDescriptor then none
      else some ⟨naming, lookupA class_name g.properties_by_class_name⟩

/-- `PropertyGraph.get_properties_from`, applied to the edge sequence the
evaluation of `O * term * O` produces: first the dictionary rebuild that keeps
every binding whose value is not a `Naming` (which is all of them, since the
values are `PropertyList`s), then the evaluation pass, then the canonical node
sequence. `namings_by_class_name` is not touched before the pass. -/
def PropertyGraph.get_properties_from (g : PropertyGraph) (edges : List (Str × Str)) :
    Res (PropertyGraph × List NamedProperty) :=
  let g' : PropertyGraph :=
    { g with properties_by_class_name :=
        g.properties_by_class_name.filter (fun kv => !isNamingValue kv.2) }
  match g'.runEdges edges with
  | .validationError m => .validationError m
  | .ok g2 => .ok (g2, g2.propertiesList)

/-- Observable form of a node sequence: what Python printing and `__eq__`
expose of each `NamedProperty` — its naming and its sorted sub-property list. -/
def observeProperties (l : List NamedProperty) : List (Entry × List Entry) :=
  l.map fun np => (np.naming, np.properties)

/-- `interface_name` of a naming: `"I"` prefixed to the bare class name
(`"I" + self._class_name`, no module prefix). -/
def Naming.interface_name (n : Naming) : Str :=
  'I' :: n.class_name_raw

def Entry.interface_name : Entry → Str
  | .td d => 'I' :: d.class_name_raw
  | .naming n => n.interface_name
  | .container c => c.toNaming.interface_name

/-- The observable part of a class synthesized by `InterfaceGenerator`: its
name and its `__abstractmethods__` set (`frozenset(getters)`). -/
structure AbstractClassTemplate where
  interface_name : Str
  abstract_method_names : Finset Str
deriving DecidableEq

/-- `InterfaceGenerator.generate_abstract_class`: one abstract property getter
per sub-property, named by its `value_name`; the getter set is a Python `set`,
modelled as a `Finset`. Returns `none` when a sub-property is a plain
`TypeDescriptor`, on which the attribute access `value_name` raises. -/
def InterfaceGenerator.generate_abstract_class (class_naming : NamedProperty) :
    Option AbstractClassTemplate :=
  if class_naming.properties.any Entry.isPlainTypeDescriptor then none
  else
    some
      { interface_name := class_naming.naming.interface_name
        abstract_method_names := (class_naming.properties.map Entry.value_name).toFinset }

/-- `InterfaceGenerator.generate_abstract_container`: exactly one abstract
getter, named by the item naming's `plural_value_name`. Returns `none` when the
item entry is a plain `TypeDescriptor` (no `plural_value_name` attribute). -/
def InterfaceGenerator.generate_abstract_container (class_naming : NamedProperty)
    (item_naming : Entry) : Option AbstractClassTemplate :=
  match item_naming with
  | .td _ => none
  | _ =>
    some
      { interface_name := class_naming.naming.interface_name
        abstract_method_names := {item_naming.plural_value_name} }

/-- `protobuf_generator.is_value_property`: true iff some sub-property is a
plain `TypeDescriptor` (an opaque scalar leaf). -/
def is_value_property (property_definition : NamedProperty) : Bool :=
  property_definition.properties.any Entry.isPlainTypeDescriptor

/-- `protobuf_generator.get_value_property_type`: the first plain
`TypeDescriptor` among the sub-properties, if any. -/
def get_value_property_type (property_definition : NamedProperty) : Option TypeDescriptor :=
  property_definition.properties.findSome? fun e =>
    match e with
    | .td d => some d
    | _ => none

/-- Decimal digits of a `Nat` (fuel-based so that it reduces definitionally). -/
def natToStrAux : Nat → Nat → Str
  | 0, _ => []
  | fuel + 1, n =>
    if n < 10 then [Nat.digitChar n]
    else natToStrAux fuel (n / 10) ++ [Nat.digitChar (n % 10)]

/-- Python `"{}".format(i)` for a natural number. -/
def natToStr (n : Nat) : Str :=
  natToStrAux (n + 1) n

/-- The line `    required <type> <field> = <i+1>;` emitted for the sub-property
at 0-based position `i` of an ordinary member, or `none` when the generator
emits nothing for it (its definition is missing from the module lookup).
When the sub-property definition reduces to a scalar, the field type is the
scalar's class name; otherwise it is the sub-property's module-stripped class
name (the preceding conditional module qualification in the source is dead
code: its `type_name` is unused in the scalar branch, and the other branch
overwrites it unconditionally). -/
def ProtobufGenerator.requiredFieldLine (m : DomainModule) (i : Nat)
    (sub_property_naming : Entry) : Option Str :=
  match m.get_named_property sub_property_naming.class_name with
  | none => none
  | some sub_property_definition =>
    if is_value_property sub_property_definition then
      let value_type_class :=
        ((get_value_property_type sub_property_definition).map TypeDescriptor.class_name).getD []
      some ("    required ".toList ++ value_type_class ++ [' '] ++
        sub_property_naming.value_name ++ " = ".toList ++ natToStr (i + 1) ++ [';'])
    else
      some ("    required ".toList ++ sub_property_naming.moduleless_class_name ++ [' '] ++
        sub_property_naming.value_name ++ " = ".toList ++ natToStr (i + 1) ++ [';'])

/-- The lines emitted for one ordinary (`type(x) == Naming`) member: nothing
when it has no definition or reduces to a scalar, else a message block with one
required field per resolvable sub-property. -/
def ProtobufGenerator.namingMemberLines (m : DomainModule) (named_property : Entry) :
    List Str :=
  match m.get_named_property named_property.class_name with
  | none => []
  | some property_definition =>
    if is_value_property property_definition then []
    else
      ("message ".toList ++ named_property.moduleless_class_name ++ " \x7b".toList) ::
        (property_definition.properties.enum.filterMap fun iv =>
          ProtobufGenerator.requiredFieldLine m iv.1 iv.2) ++
        ["\x7d".toList]

/-- The lines emitted for one container (`type(x) == ContainerNaming`) member:
a message block with a single repeated field named by the item's plural value
name. `none` models the attribute/index errors Python raises when the
container has no definition, an empty sub-property list, or an item without a
definition. -/
def ProtobufGenerator.containerMemberLines (m : DomainModule) (named_property : Entry) :
    Option (List Str) :=
  match m.get_named_property named_property.class_name with
  | none => none
  | some property_definition =>
    match property_definition.properties with
    | [] => none
    | sub_property_naming :: _ =>
      match m.get_named_property sub_property_naming.class_name with
      | none => none
      | some sub_property_definition =>
        let field :=
          if is_value_property sub_property_definition then
            let value_type_class :=
              ((get_value_property_type sub_property_definition).map
                TypeDescriptor.class_name).getD []
            "    repeated ".toList ++ value_type_class ++ [' '] ++
              sub_property_naming.plural_value_name ++ " = 1;".toList
          else
            "    repeated ".toList ++ sub_property_naming.moduleless_class_name ++ [' '] ++
              sub_property_naming.plural_value_name ++ " = 1;".toList
        some
          [("message ".toList ++ named_property.moduleless_class_name ++ " \x7b".toList),
           field,
           "\x7d".toList]

/-- The lines emitted for one member entry of the module; plain
`TypeDescriptor` entries match neither `type(...)` test and emit nothing. -/
def ProtobufGenerator.memberLines (m : DomainModule) (named_property : Entry) :
    Option (List Str) :=
  match named_property with
  | .naming _ => some (ProtobufGenerator.namingMemberLines m named_property)
  | .container _ => ProtobufGenerator.containerMemberLines m named_property
  | .td _ => some []

/-- The sorted import list: every distinct module referenced by a direct
sub-property of a member, except the module's own name. -/
def ProtobufGenerator.importLines (m : DomainModule) : List Str :=
  let sub_modules : List Str :=
    (m.properties.flatMap fun named_property =>
      match m.get_named_property named_property.class_name with
      | none => []
      | some property_definition =>
        property_definition.properties.filterMap fun sub => sub.module_name).dedup
  (sortStr sub_modules).filterMap fun sub_module =>
    if m.module_name ≠ some sub_module then
      some ("import ".toList ++ sub_module ++ [';'])
    else none

/-- The concatenated member blocks, in canonical member order; `none` as soon
as one member raises. -/
def ProtobufGenerator.memberBlocks (m : DomainModule) : List Entry → Option (List Str)
  | [] => some []
  | e :: rest =>
    match ProtobufGenerator.memberLines m e, ProtobufGenerator.memberBlocks m rest with
    | some ls, some rs => some (ls ++ rs)
    | _, _ => none

/-- `ProtobufGenerator.get_property_file_content`: header, optional package
line, imports, then the member blocks in canonical member order, joined with
newlines. `none` models the exceptions the container branch can raise. -/
def ProtobufGenerator.get_property_file_content (m : DomainModule) : Option Str :=
  let header : List Str :=
    ["syntax = \"proto2\";".toList] ++
      (match m.module_name with
       | some name => ["package ".toList ++ name ++ [';']]
       | none => []) ++
      ProtobufGenerator.importLines m
  match ProtobufGenerator.memberBlocks m m.properties with
  | none => none
  | some body => some ((header ++ body).intersperse ['\n']).flatten

/-- Modelled from the spec: the term algebra of the external collaborator
`category_equations` (not part of this repository). Terms are built from named
leaves, sum, product, the identity element `I` and the zero/terminal element
`O`. -/
inductive Term where
  | leaf (name : Str)
  | sum (a b : Term)
  | prod (a b : Term)
  | I
  | O
deriving DecidableEq, Repr

/-- Modelled from the spec: the connectable surface of a term after fully
distributing products over sums and collapsing identity/terminal elements —
its open sources, open sinks, direct edges, and whether it contains the
identity as a summand (so that composition passes through it). -/
structure TermFlow where
  sources : List Str
  sinks : List Str
  edges : List (Str × Str)
  passthrough : Bool
deriving DecidableEq, Repr

/-- Modelled from the spec: the structural fold computing a term's flow. The
zero/terminal element has no sources and no sinks; a leaf is both a source and
a sink; sum unions; product chains every sink of the left factor to every
source of the right factor, identity summands passing surfaces through. -/
def Term.flow : Term → TermFlow
  | .I => ⟨[], [], [], true⟩
  | .O => ⟨[], [], [], false⟩
  | .leaf n => ⟨[n], [n], [], false⟩
  | .sum a b =>
    ⟨a.flow.sources ++ b.flow.sources, a.flow.sinks ++ b.flow.sinks,
     a.flow.edges ++ b.flow.edges, a.flow.passthrough || b.flow.passthrough⟩
  | .prod a b =>
    ⟨a.flow.sources ++ (if a.flow.passthrough then b.flow.sources else []),
     b.flow.sinks ++ (if b.flow.passthrough then a.flow.sinks else []),
     a.flow.edges ++ b.flow.edges ++
       (a.flow.sinks.flatMap fun s => b.flow.sources.map fun t => (s, t)),
     a.flow.passthrough && b.flow.passthrough⟩

/-- Modelled from the spec: evaluating `O * term * O` invokes the edge
callback exactly once per direct edge, in the deterministic order of the
structural fold. -/
def Term.evalEdges (t : Term) : List (Str × Str) :=
  ((Term.prod (Term.prod Term.O t) Term.O).flow).edges.dedup

/-- Modelled from the spec: the algebra considers two terms equal when, after
its normalization laws, they denote the same edge set. -/
def Term.algebraEq (t1 t2 : Term) : Prop :=
  ∀ e : Str × Str, e ∈ t1.flow.edges ↔ e ∈ t2.flow.edges

/-- `get_properties_from` applied to a term: run the edge sequence the
evaluation of the wrapped term produces. -/
def PropertyGraph.get_properties_from_term (g : PropertyGraph) (t : Term) :
    Res (PropertyGraph × List NamedProperty) :=
  g.get_properties_from t.evalEdges

theorem char_le_iff_toNat {a b : Char} : a ≤ b ↔ a.toNat ≤ b.toNat := by
  rw [Char.le_def, UInt32.le_def, BitVec.le_def]
  exact Iff.rfl

theorem char_ofNat_toNat_small {n : Nat} (h : n < 55296) : (Char.ofNat n).toNat = n := by
  rw [Char.ofNat]
  rw [dif_pos (Or.inl (by omega))]
  simp [Char.ofNatAux, Char.toNat, UInt32.ofNat', UInt32.toNat]

/-- Upper-casing a lowercase ASCII letter leaves the lowercase range. -/
theorem not_lower_toUpper {c : Char} (h1 : 'a' ≤ c) (h2 : c ≤ 'z') :
    ¬ ('a' ≤ c.toUpper) := by
  have ha : 97 ≤ c.toNat := by
    have := char_le_iff_toNat.mp h1
    simpa using this
  have hz : c.toNat ≤ 122 := by
    have := char_le_iff_toNat.mp h2
    simpa using this
  have hup : c.toUpper = Char.ofNat (c.toNat - 32) := by
    rw [Char.toUpper, if_pos ⟨by omega, by omega⟩]
  intro hle
  have hle2 := char_le_iff_toNat.mp hle
  have hsmall : (Char.ofNat (c.toNat - 32)).toNat = c.toNat - 32 :=
    char_ofNat_toNat_small (by omega)
  rw [hup, hsmall] at hle2
  have h97 : ('a' : Char).toNat = 97 := by decide
  omega

theorem splitOnUnderscore_ne_nil (l : Str) : splitOnUnderscore l ≠ [] := by
  cases l with
  | nil => simp [splitOnUnderscore]
  | cons c rest =>
    rw [splitOnUnderscore]
    by_cases hc : c = '_'
    · simp [hc]
    · rw [if_neg hc]
      rcases hs : splitOnUnderscore rest with _ | ⟨h, t⟩ <;> simp

/-- The camel-cased form of a name that begins with a lowercase letter begins
with the corresponding uppercase letter, so it never matches the lowercase
prefix pattern (in particular, it differs from every name that does). -/
theorem camel_not_prefix {name : Str} (h : matchesIdentifierPrefix name = true) :
    matchesIdentifierPrefix (Naming.camel_case name) = false := by
  cases name with
  | nil => simp [matchesIdentifierPrefix] at h
  | cons c rest =>
    simp only [matchesIdentifierPrefix, Bool.and_eq_true, decide_eq_true_eq] at h
    have hcu : c ≠ '_' := by
      intro hc
      subst hc
      exact absurd h.1 (by decide)
    unfold Naming.camel_case splitOnUnderscore
    rw [if_neg hcu]
    rcases hsplit : splitOnUnderscore rest with _ | ⟨hh, tt⟩
    · exact absurd hsplit (splitOnUnderscore_ne_nil rest)
    · simp only [List.map_cons, List.flatten_cons, Naming.capitalize, List.cons_append]
      show matchesIdentifierPrefix (c.toUpper :: (hh ++ (tt.map Naming.capitalize).flatten)) = false
      rw [matchesIdentifierPrefix]
      rw [decide_eq_false (not_lower_toUpper h.1 h.2), Bool.false_and]

theorem lookupA_insertA_self {β : Type} (k : Str) (v : β) (l : List (Str × β)) :
    lookupA k (insertA k v l) = some v := by
  induction l with
  | nil => simp [insertA, lookupA]
  | cons kv t ih =>
    obtain ⟨k', v'⟩ := kv
    by_cases hk : k' = k
    · subst hk
      rw [insertA, if_pos rfl, lookupA, if_pos rfl]
    · rw [insertA, if_neg hk, lookupA, if_neg hk]
      exact ih

theorem lookupA_insertA_ne {β : Type} {k k2 : Str} (v : β) (l : List (Str × β))
    (h : k ≠ k2) : lookupA k2 (insertA k v l) = lookupA k2 l := by
  induction l with
  | nil =>
    simp only [insertA, lookupA]
    rw [if_neg h]
  | cons kv t ih =>
    obtain ⟨k', v'⟩ := kv
    by_cases hk : k' = k
    · subst hk
      simp only [insertA, lookupA]
      rw [if_neg h, if_neg h]
    · simp only [insertA]
      rw [if_neg hk]
      simp only [lookupA]
      by_cases hk2 : k' = k2
      · rw [if_pos hk2, if_pos hk2]
      · rw [if_neg hk2, if_neg hk2]
        exact ih

theorem lookupA_isSome_iff_mem_keys {β : Type} {k : Str} {l : List (Str × β)} :
    (lookupA k l).isSome = true ↔ k ∈ l.map Prod.fst := by
  induction l with
  | nil => simp [lookupA]
  | cons kv t ih =>
    obtain ⟨k', v'⟩ := kv
    haveI : Nonempty (Str × β) := ⟨(k, v')⟩
    simp only [lookupA, List.map_cons, List.mem_cons]
    by_cases hk : k' = k
    · subst hk
      simp
    · rw [if_neg hk, ih]
      constructor
      · intro hm
        exact Or.inr hm
      · intro hm
        rcases hm with hm | hm
        · exact absurd hm.symm hk
        · exact hm

theorem keys_insertA {β : Type} (k : Str) (v : β) (l : List (Str × β)) :
    (insertA k v l).map Prod.fst =
      if k ∈ l.map Prod.fst then l.map Prod.fst else l.map Prod.fst ++ [k] := by
  induction l with
  | nil => simp [insertA]
  | cons kv t ih =>
    obtain ⟨k', v'⟩ := kv
    haveI : Nonempty (Str × β) := ⟨(k, v')⟩
    by_cases hk : k' = k
    · subst hk
      simp [insertA]
    · simp only [insertA]
      rw [if_neg hk]
      simp only [List.map_cons, List.mem_cons]
      rw [ih]
      by_cases hmem : k ∈ t.map Prod.fst
      · rw [if_pos hmem, if_pos (Or.inr hmem)]
      · rw [if_neg hmem, if_neg ?_]
        · simp
        · intro hor
          rcases hor with hor | hor
          · exact hk hor.symm
          · exact hmem hor

theorem keysNodup_insertA {β : Type} (k : Str) (v : β) (l : List (Str × β))
    (h : (l.map Prod.fst).Nodup) : ((insertA k v l).map Prod.fst).Nodup := by
  haveI : Nonempty (Str × β) := ⟨(k, v)⟩
  rw [keys_insertA]
  by_cases hmem : k ∈ l.map Prod.fst
  · simpa [hmem] using h
  · rw [if_neg hmem]
    rw [List.nodup_append]
    refine ⟨h, List.nodup_singleton k, ?_⟩
    intro a ha hb
    rw [List.mem_singleton] at hb
    subst hb
    exact hmem ha

/-- Two lists that are strictly sorted on a string key and have the same
members are equal. -/
theorem sortedStrictExt {α : Type} (key : α → Str) :
    ∀ (l1 l2 : List α), List.Pairwise (fun a b => key a < key b) l1 →
      List.Pairwise (fun a b => key a < key b) l2 →
      (∀ x, x ∈ l1 ↔ x ∈ l2) → l1 = l2 := by
  intro l1
  induction l1 with
  | nil =>
    intro l2 _ _ hmem
    cases l2 with
    | nil => rfl
    | cons b t2 => exact absurd ((hmem b).mpr (List.mem_cons_self b t2)) (by simp)
  | cons a t1 ih =>
    intro l2 h1 h2 hmem
    cases l2 with
    | nil => exact absurd ((hmem a).mp (List.mem_cons_self a t1)) (by simp)
    | cons b t2 =>
      have hab : a = b := by
        rcases List.mem_cons.mp ((hmem a).mp (List.mem_cons_self a t1)) with hx | hat2
        · exact hx
        · rcases List.mem_cons.mp ((hmem b).mpr (List.mem_cons_self b t2)) with hx | hbt1
          · exact hx.symm
          · have h1b : key a < key b := (List.pairwise_cons.mp h1).1 b hbt1
            have h2a : key b < key a := (List.pairwise_cons.mp h2).1 a hat2
            exact absurd (lt_trans h1b h2a) (lt_irrefl _)
      subst hab
      have htail : ∀ x, x ∈ t1 ↔ x ∈ t2 := by
        intro x
        constructor
        · intro hx
          have hkey : key a < key x := (List.pairwise_cons.mp h1).1 x hx
          rcases List.mem_cons.mp ((hmem x).mp (List.mem_cons_of_mem a hx)) with hy | hy
          · subst hy
            exact absurd hkey (lt_irrefl _)
          · exact hy
        · intro hx
          have hkey : key a < key x := (List.pairwise_cons.mp h2).1 x hx
          rcases List.mem_cons.mp ((hmem x).mpr (List.mem_cons_of_mem a hx)) with hy | hy
          · subst hy
            exact absurd hkey (lt_irrefl _)
          · exact hy
      rw [ih t2 (List.pairwise_cons.mp h1).2 (List.pairwise_cons.mp h2).2 htail]

/-- Selector on an evaluate-and-collect result: the class names of the
returned node sequence. -/
def outputClassNames (r : Res (PropertyGraph × List NamedProperty)) : Option (List Str) :=
  match r with
  | .ok (_, out) => some (out.map fun np => np.naming.class_name)
  | .validationError _ => none

/-- Selector on an evaluate-and-collect result: the observable node sequence. -/
def outputObserved (r : Res (PropertyGraph × List NamedProperty)) :
    Option (List (Entry × List Entry)) :=
  match r with
  | .ok (_, out) => some (observeProperties out)
  | .validationError _ => none

/-- Claim C3: the specification says construction fails iff the name does not
match `[a-z][a-z_]*` in full, and in particular every string containing a digit
after a lowercase first letter is rejected. The code uses `re.match`, which
only anchors at the start, so the name `a1b` — no full match — is accepted and
builds a `Naming` with class name `A1b`: the code contradicts the validation
rule stated in its own error message. -/
theorem claim_C3_prefix_match_accepts_invalid :
    matchesIdentifierFull "a1b".toList = false ∧
    Naming.make "a1b".toList none none =
      .ok ⟨⟨none, "A1b".toList⟩, "a1b".toList, "a1bs".toList, "a1b".toList⟩ := by
  constructor
  · decide
  · decide

/-- Claim C10: camel-case class-name derivation is not injective on valid
value names: capitalizing the empty segment yields the empty string, so the
distinct full-pattern-valid names `foo_bar` and `foo__bar` derive the same
class name `FooBar`, and evaluating a term containing both leaves silently
merges them into a single graph node (here carrying `foo_bar`'s naming with
the union of both adjacency sets). -/
theorem claim_C10_camel_case_collision :
    "foo_bar".toList ≠ "foo__bar".toList ∧
    matchesIdentifierFull "foo_bar".toList = true ∧
    matchesIdentifierFull "foo__bar".toList = true ∧
    Naming.capitalize [] = [] ∧
    Naming.camel_case "foo_bar".toList = "FooBar".toList ∧
    Naming.camel_case "foo__bar".toList = "FooBar".toList ∧
    outputClassNames (PropertyGraph.cleared.get_properties_from
        [("foo_bar".toList, "alpha".toList), ("foo__bar".toList, "beta".toList)]) =
      some ["Alpha".toList, "Beta".toList, "FooBar".toList] ∧
    outputObserved (PropertyGraph.cleared.get_properties_from
        [("foo_bar".toList, "alpha".toList), ("foo__bar".toList, "beta".toList)]) =
      some
        [(.naming ⟨⟨none, "Alpha".toList⟩, "alpha".toList, "alphas".toList, "alpha".toList⟩, []),
         (.naming ⟨⟨none, "Beta".toList⟩, "beta".toList, "betas".toList, "beta".toList⟩, []),
         (.naming ⟨⟨none, "FooBar".toList⟩, "foo_bar".toList, "foo_bars".toList,
            "foo bar".toList⟩,
          [.naming ⟨⟨none, "Alpha".toList⟩, "alpha".toList, "alphas".toList, "alpha".toList⟩,
           .naming ⟨⟨none, "Beta".toList⟩, "beta".toList, "betas".toList, "beta".toList⟩])] := by
  refine ⟨by decide, by decide, by decide, by decide, by decide, by decide, by decide, by decide⟩

/-- Claim C2 (counterexample): the claim says a valid word ending in a
consonant followed by `y` pluralizes by replacing the final `y` with `ies`,
so `city` should give `cities`; the code computes `word[:-1] + "es"`, giving
`cites`. -/
theorem claim_C2_counterexample :
    matchesIdentifierFull "city".toList = true ∧
    "city".toList = "ci".toList ++ ['t', 'y'] ∧
    ('t' ∉ (['a', 'e', 'i', 'o', 'u'] : List Char)) ∧
    Naming.plural "city".toList = "cites".toList ∧
    Naming.plural "city".toList ≠ "cities".toList := by
  refine ⟨by decide, by decide, by decide, by decide, by decide⟩

theorem reverse_eq_cons {w : Str} {c : Char} {r : Str} (h : w.reverse = c :: r) :
    w = r.reverse ++ [c] := by
  have := congrArg List.reverse h
  simpa using this

/-- Claim C2 (amended): for every word matching `[a-z][a-z_]*` in full, the
default pluralization appends `es` after `x` or `s`; for a word ending in `y`
preceded by a non-vowel it drops the `y` and appends `es` (not `ies`); for a
word ending in `y` preceded by a vowel it appends `s`; after `sh` or `ch` it
appends `es`; in every other case (including the one-letter word `y`) it
appends `s`. -/
theorem claim_C2_amended_pluralization (w : Str) (hval : matchesIdentifierFull w = true) :
    ((∃ u, w = u ++ ['x']) ∨ (∃ u, w = u ++ ['s']) → Naming.plural w = w ++ ['e', 's'])
    ∧ (∀ u c, w = u ++ [c, 'y'] → c ∉ (['a', 'e', 'i', 'o', 'u'] : List Char) →
        Naming.plural w = u ++ [c] ++ ['e', 's'])
    ∧ (∀ u c, w = u ++ [c, 'y'] → c ∈ (['a', 'e', 'i', 'o', 'u'] : List Char) →
        Naming.plural w = w ++ ['s'])
    ∧ (∀ u, (w = u ++ ['s', 'h'] ∨ w = u ++ ['c', 'h']) → Naming.plural w = w ++ ['e', 's'])
    ∧ ((¬ ∃ u, w = u ++ ['x']) → (¬ ∃ u, w = u ++ ['s']) →
        (¬ ∃ u c, w = u ++ [c, 'y']) → (¬ ∃ u, w = u ++ ['s', 'h']) →
        (¬ ∃ u, w = u ++ ['c', 'h']) → Naming.plural w = w ++ ['s']) := by
  refine ⟨?_, ?_, ?_, ?_, ?_⟩
  · rintro (⟨u, rfl⟩ | ⟨u, rfl⟩) <;>
      simp [Naming.plural, List.reverse_append]
  · rintro u c rfl hc
    simp only [List.mem_cons, not_or] at hc
    obtain ⟨ha, he, hi, ho, hu, -⟩ := hc
    have hshape : (u ++ [c, 'y']).reverse = 'y' :: c :: u.reverse := by
      simp
    simp [Naming.plural, hshape, ha, he, hi, ho, hu]
  · rintro u c rfl hc
    have hshape : (u ++ [c, 'y']).reverse = 'y' :: c :: u.reverse := by
      simp
    fin_cases hc <;> simp [Naming.plural, hshape]
  · rintro u (rfl | rfl)
    · have hshape : (u ++ ['s', 'h']).reverse = 'h' :: 's' :: u.reverse := by simp
      simp [Naming.plural, hshape]
    · have hshape : (u ++ ['c', 'h']).reverse = 'h' :: 'c' :: u.reverse := by simp
      simp [Naming.plural, hshape]
  · intro hx hs hy hsh hch
    rcases hrev : w.reverse with _ | ⟨last, rest⟩
    · simp [Naming.plural, hrev]
    · have hw := reverse_eq_cons hrev
      have hlx : last ≠ 'x' := by
        intro h
        exact hx ⟨rest.reverse, by rw [hw, h]⟩
      have hls : last ≠ 's' := by
        intro h
        exact hs ⟨rest.reverse, by rw [hw, h]⟩
      rcases rest with _ | ⟨second, rest2⟩
      · simp [Naming.plural, hrev, hlx, hls]
      · have hw2 : w = rest2.reverse ++ [second, last] := by
          simpa using hw
        have hly : last ≠ 'y' := by
          intro h
          exact hy ⟨rest2.reverse, second, by rw [hw2, h]⟩
        have hnsh : ¬(second = 's' ∧ last = 'h') := by
          rintro ⟨rfl, rfl⟩
          exact hsh ⟨rest2.reverse, hw2⟩
        have hnch : ¬(second = 'c' ∧ last = 'h') := by
          rintro ⟨rfl, rfl⟩
          exact hch ⟨rest2.reverse, hw2⟩
        have hc1 : ¬((last = 'x' || last = 's') = true) := by
          simp only [Bool.or_eq_true, decide_eq_true_eq]
          rintro (h | h)
          · exact hlx h
          · exact hls h
        have hc3 : ¬(((second = 's' && last = 'h') || (second = 'c' && last = 'h')) = true) := by
          simp only [Bool.or_eq_true, Bool.and_eq_true, decide_eq_true_eq]
          rintro (⟨h1, h2⟩ | ⟨h1, h2⟩)
          · exact hnsh ⟨h1, h2⟩
          · exact hnch ⟨h1, h2⟩
        simp only [Naming.plural, hrev]
        rw [if_neg hc1, if_neg hly, if_neg hc3]

/-- The witness word `fly`: valid, ends in non-vowel + `y`, pluralizes to
`fles` under the code's rule. -/
theorem claim_C2_amended_pluralization_witness :
    matchesIdentifierFull "fly".toList = true ∧
    Naming.plural "fly".toList = "f".toList ++ ['l'] ++ ['e', 's'] :=
  ⟨by decide,
   (claim_C2_amended_pluralization "fly".toList (by decide)).2.1 "f".toList 'l'
     (by decide) (by decide)⟩

/-- A `PropertyList` built by a sequence of `add` calls starting from the
empty list. -/
def buildPropertyList (adds : List Entry) : PropertyList :=
  adds.foldl PropertyList.add ⟨[]⟩

theorem add_class_names_mem (pl : PropertyList) (e : Entry) (cn : Str) :
    cn ∈ (pl.add e).elems.map Entry.class_name ↔
      cn ∈ pl.elems.map Entry.class_name ∨ cn = e.class_name := by
  unfold PropertyList.add
  by_cases h : pl.elems.any (fun x => x.class_name = e.class_name)
  · rw [if_pos h]
    simp only [List.any_eq_true, decide_eq_true_eq] at h
    obtain ⟨x, hx, hxe⟩ := h
    constructor
    · intro hm
      exact Or.inl hm
    · rintro (hm | rfl)
      · exact hm
      · exact List.mem_map.mpr ⟨x, hx, hxe⟩
  · rw [if_neg h]
    simp [List.map_append]

theorem add_class_names_nodup (pl : PropertyList) (e : Entry)
    (h : (pl.elems.map Entry.class_name).Nodup) :
    ((pl.add e).elems.map Entry.class_name).Nodup := by
  unfold PropertyList.add
  by_cases hc : pl.elems.any (fun x => x.class_name = e.class_name)
  · rw [if_pos hc]
    exact h
  · rw [if_neg hc]
    simp only [List.map_append, List.map_cons, List.map_nil]
    rw [List.nodup_append]
    refine ⟨h, List.nodup_singleton _, ?_⟩
    intro a ha hb
    rw [List.mem_singleton] at hb
    subst hb
    simp only [List.any_eq_true, decide_eq_true_eq] at hc
    obtain ⟨x, hx, hxe⟩ := List.mem_map.mp ha
    exact hc ⟨x, hx, hxe⟩

theorem foldl_add_class_names_mem (adds : List Entry) :
    ∀ (pl : PropertyList) (cn : Str),
      cn ∈ ((adds.foldl PropertyList.add pl).elems.map Entry.class_name) ↔
        cn ∈ pl.elems.map Entry.class_name ∨ cn ∈ adds.map Entry.class_name := by
  induction adds with
  | nil =>
    intro pl cn
    simp
  | cons e rest ih =>
    intro pl cn
    simp only [List.foldl_cons]
    rw [ih]
    rw [add_class_names_mem]
    simp only [List.map_cons, List.mem_cons]
    tauto

theorem foldl_add_class_names_nodup (adds : List Entry) :
    ∀ pl, (pl.elems.map Entry.class_name).Nodup →
      ((adds.foldl PropertyList.add pl).elems.map Entry.class_name).Nodup := by
  induction adds with
  | nil =>
    intro pl h
    exact h
  | cons e rest ih =>
    intro pl h
    exact ih _ (add_class_names_nodup pl e h)

instance instIsTotalEntryClassNameLe : IsTotal Entry (fun a b => a.class_name ≤ b.class_name) :=
  ⟨fun x y => le_total x.class_name y.class_name⟩

instance instIsTransEntryClassNameLe : IsTrans Entry (fun a b => a.class_name ≤ b.class_name) :=
  ⟨fun _ _ _ h1 h2 => le_trans h1 h2⟩

theorem sortByClassName_perm (l : List Entry) : (sortByClassName l).Perm l :=
  List.perm_insertionSort _ l

theorem sortByClassName_sorted (l : List Entry) :
    List.Pairwise (fun a b : Entry => a.class_name ≤ b.class_name) (sortByClassName l) :=
  List.sorted_insertionSort _ l

theorem pairwise_lt_of_le_nodup {α : Type} (key : α → Str) (l : List α)
    (hs : List.Pairwise (fun a b => key a ≤ key b) l) (hn : (l.map key).Nodup) :
    List.Pairwise (fun a b => key a < key b) l := by
  have hne : List.Pairwise (fun a b => key a ≠ key b) l := List.pairwise_map.mp hn
  exact (hs.and hne).imp (fun h => lt_of_le_of_ne h.1 h.2)

/-- Claim C7: for every sequence of `add` operations, iterating the built
`PropertyList` yields its distinct members — uniqueness and identity taken by
fully qualified class name, which is what Python equality on these elements
compares — sorted strictly ascending by class name; the resulting class-name
sequence depends only on the set of added class names, so it is unchanged
under any permutation of the `add` sequence. -/
theorem claim_C7_property_list_canonical_order (l1 l2 : List Entry) (hperm : l1.Perm l2) :
    ((buildPropertyList l1).properties.map Entry.class_name =
      (buildPropertyList l2).properties.map Entry.class_name)
    ∧ List.Pairwise (fun a b : Entry => a.class_name < b.class_name)
        (buildPropertyList l1).properties
    ∧ ((buildPropertyList l1).properties.map Entry.class_name).Nodup
    ∧ (∀ cn, cn ∈ (buildPropertyList l1).properties.map Entry.class_name ↔
        cn ∈ l1.map Entry.class_name) := by
  have hbase : ((⟨[]⟩ : PropertyList).elems.map Entry.class_name).Nodup := by
    simp
  have hnodup1 : ((buildPropertyList l1).elems.map Entry.class_name).Nodup :=
    foldl_add_class_names_nodup l1 _ hbase
  have hnodup2 : ((buildPropertyList l2).elems.map Entry.class_name).Nodup :=
    foldl_add_class_names_nodup l2 _ hbase
  have hmem1 : ∀ cn, cn ∈ (buildPropertyList l1).elems.map Entry.class_name ↔
      cn ∈ l1.map Entry.class_name := by
    intro cn
    simp only [buildPropertyList]
    rw [foldl_add_class_names_mem]
    simp
  have hmem2 : ∀ cn, cn ∈ (buildPropertyList l2).elems.map Entry.class_name ↔
      cn ∈ l2.map Entry.class_name := by
    intro cn
    simp only [buildPropertyList]
    rw [foldl_add_class_names_mem]
    simp
  have hpermmap1 : ((buildPropertyList l1).properties.map Entry.class_name).Perm
      ((buildPropertyList l1).elems.map Entry.class_name) :=
    (sortByClassName_perm _).map _
  have hpermmap2 : ((buildPropertyList l2).properties.map Entry.class_name).Perm
      ((buildPropertyList l2).elems.map Entry.class_name) :=
    (sortByClassName_perm _).map _
  have hsortnodup1 : ((buildPropertyList l1).properties.map Entry.class_name).Nodup :=
    (hpermmap1.nodup_iff).mpr hnodup1
  have hsortnodup2 : ((buildPropertyList l2).properties.map Entry.class_name).Nodup :=
    (hpermmap2.nodup_iff).mpr hnodup2
  have hpw1 : List.Pairwise (fun a b : Entry => a.class_name < b.class_name)
      (buildPropertyList l1).properties :=
    pairwise_lt_of_le_nodup Entry.class_name _ (sortByClassName_sorted _) hsortnodup1
  have hpw2 : List.Pairwise (fun a b : Entry => a.class_name < b.class_name)
      (buildPropertyList l2).properties :=
    pairwise_lt_of_le_nodup Entry.class_name _ (sortByClassName_sorted _) hsortnodup2
  have hmemsort1 : ∀ cn, cn ∈ (buildPropertyList l1).properties.map Entry.class_name ↔
      cn ∈ l1.map Entry.class_name := by
    intro cn
    rw [hpermmap1.mem_iff]
    exact hmem1 cn
  have hmemsort2 : ∀ cn, cn ∈ (buildPropertyList l2).properties.map Entry.class_name ↔
      cn ∈ l2.map Entry.class_name := by
    intro cn
    rw [hpermmap2.mem_iff]
    exact hmem2 cn
  refine ⟨?_, hpw1, hsortnodup1, hmemsort1⟩
  apply sortedStrictExt (fun x : Str => x)
  · exact List.pairwise_map.mpr hpw1
  · exact List.pairwise_map.mpr hpw2
  · intro x
    rw [hmemsort1 x, hmemsort2 x]
    exact (hperm.map Entry.class_name).mem_iff

def entryFooBar : Entry :=
  .naming ⟨⟨none, "FooBar".toList⟩, "foo_bar".toList, "foo_bars".toList, "foo bar".toList⟩

def entryBar : Entry :=
  .naming ⟨⟨none, "Bar".toList⟩, "bar".toList, "bars".toList, "bar".toList⟩

/-- Witness: two concrete add sequences that are permutations of each other
produce the same sorted class-name sequence. -/
theorem claim_C7_property_list_canonical_order_witness :
    ([entryFooBar, entryBar].Perm [entryBar, entryFooBar]) ∧
    ((buildPropertyList [entryFooBar, entryBar]).properties.map Entry.class_name =
      (buildPropertyList [entryBar, entryFooBar]).properties.map Entry.class_name) :=
  ⟨by decide,
   (claim_C7_property_list_canonical_order [entryFooBar, entryBar]
     [entryBar, entryFooBar] (by decide)).1⟩

/-- Claim C9: when a class name is already registered in
`namings_by_class_name`, registration through the edge callback
(`_update_naming`) keeps the first-registered entry — it returns the stored
entry and leaves the graph unchanged — whereas the `named` (`N`), `repeated`
(`R`) and `scalar` (`T`) factories unconditionally overwrite the stored entry
with the newly built one (last write wins). -/
theorem claim_C9_first_wins_vs_factory_overwrite :
    (∀ (g : PropertyGraph) (name : Str) (naming : Naming) (e : Entry),
      lookupA name g.namings_by_class_name = none →
      Naming.make name none none = .ok naming →
      lookupA naming.class_name g.namings_by_class_name = some e →
      g.update_naming name = .ok (g, e))
    ∧ (∀ (g : PropertyGraph) (name : Str) (plural module_name : Option Str)
        (naming : Naming) (g' : PropertyGraph) (leaf : Str),
        Naming.make name plural module_name = .ok naming →
        g.naming_getter name plural module_name = .ok (g', leaf) →
        lookupA naming.class_name g'.namings_by_class_name = some (.naming naming))
    ∧ (∀ (g : PropertyGraph) (name : Str) (container_module item_module : Option Str)
        (naming : Naming) (container : ContainerNaming) (g' : PropertyGraph) (leaf : Str),
        Naming.make name none item_module = .ok naming →
        ContainerNaming.make naming container_module = .ok container →
        g.repeated name container_module item_module = .ok (g', leaf) →
        lookupA container.class_name g'.namings_by_class_name = some (.container container))
    ∧ (∀ (g : PropertyGraph) (class_name_arg : Str) (module_name : Option Str),
        lookupA (TypeDescriptor.mk module_name class_name_arg).class_name
          (g.buildin_getter class_name_arg module_name).1.namings_by_class_name =
          some (.td ⟨module_name, class_name_arg⟩)) := by
  refine ⟨?_, ?_, ?_, ?_⟩
  · intro g name naming e hraw hmake hfound
    simp only [PropertyGraph.update_naming, hraw, hmake, hfound]
  · intro g name plural module_name naming g' leaf hmake hok
    simp only [PropertyGraph.naming_getter, hmake] at hok
    rcases hmod : naming.toTypeDescriptor.module_name with _ | m
    · rw [hmod] at hok
      simp only [Res.ok.injEq, Prod.mk.injEq] at hok
      rw [← hok.1]
      exact lookupA_insertA_self _ _ _
    · rw [hmod] at hok
      simp only [Res.ok.injEq, Prod.mk.injEq] at hok
      rw [← hok.1]
      exact lookupA_insertA_self _ _ _
  · intro g name container_module item_module naming container g' leaf hmake hcmake hok
    simp only [PropertyGraph.repeated, hmake, hcmake] at hok
    rcases container_module with _ | m
    · simp only [Res.ok.injEq, Prod.mk.injEq] at hok
      rw [← hok.1]
      exact lookupA_insertA_self _ _ _
    · simp only [Res.ok.injEq, Prod.mk.injEq] at hok
      rw [← hok.1]
      exact lookupA_insertA_self _ _ _
  · intro g class_name_arg module_name
    exact lookupA_insertA_self _ _ _

def fooBarNaming : Naming :=
  ⟨⟨none, "FooBar".toList⟩, "foo_bar".toList, "foo_bars".toList, "foo bar".toList⟩

/-- A graph state in which the class name `FooBar` is already registered (as a
plain scalar `TypeDescriptor`). -/
def gPre : PropertyGraph :=
  ⟨[], [("FooBar".toList, .td ⟨none, "FooBar".toList⟩)]⟩

/-- The state after the `N` factory overwrote the `FooBar` binding. -/
def gOverwritten : PropertyGraph :=
  ⟨[], [("FooBar".toList, .naming fooBarNaming)]⟩

/-- Witness: on `gPre` the edge-callback path returns the stored scalar entry
and changes nothing, while the `named` factory replaces the binding. -/
theorem claim_C9_first_wins_vs_factory_overwrite_witness :
    (gPre.update_naming "foo_bar".toList = .ok (gPre, .td ⟨none, "FooBar".toList⟩)) ∧
    lookupA "FooBar".toList gOverwritten.namings_by_class_name = some (.naming fooBarNaming) ∧
    lookupA "FooBar".toList
      (gPre.buildin_getter "FooBar".toList none).1.namings_by_class_name =
      some (.td ⟨none, "FooBar".toList⟩) := by
  refine ⟨?_, ?_, ?_⟩
  · exact (claim_C9_first_wins_vs_factory_overwrite).1 gPre "foo_bar".toList fooBarNaming
      (.td ⟨none, "FooBar".toList⟩) (by decide) (by decide) (by decide)
  · have h2 := (claim_C9_first_wins_vs_factory_overwrite).2.1 gPre "foo_bar".toList none none
      fooBarNaming gOverwritten "foo_bar".toList (by decide) (by decide)
    exact h2
  · have h4 := (claim_C9_first_wins_vs_factory_overwrite).2.2.2 gPre "FooBar".toList none
    exact h4

/-- Claim C8 (amended): for an ordinary node whose declared sub-properties all
carry value names (no plain scalar entries), the synthesized descriptor's
required-accessor set is exactly the set of sub-property value names — one
accessor per distinct value name (sub-properties of equal value name share one
accessor, see the counterexample); for a container node, the descriptor has
exactly one accessor, named by the item's plural value name. -/
theorem claim_C8_amended_interface_accessors :
    (∀ (np : NamedProperty),
      np.properties.all (fun e => !e.isPlainTypeDescriptor) = true →
      ∃ t, InterfaceGenerator.generate_abstract_class np = some t ∧
        t.abstract_method_names = (np.properties.map Entry.value_name).toFinset ∧
        t.abstract_method_names.card = (np.properties.map Entry.value_name).dedup.length)
    ∧ (∀ (np : NamedProperty) (item : Naming),
        ∃ t, InterfaceGenerator.generate_abstract_container np (.naming item) = some t ∧
          t.abstract_method_names = {item.plural_value_name} ∧
          t.abstract_method_names.card = 1) := by
  constructor
  · intro np h
    have hany : np.properties.any Entry.isPlainTypeDescriptor = false := by
      rw [List.any_eq_false]
      intro x hx
      have := List.all_eq_true.mp h x hx
      simpa using this
    refine ⟨⟨np.naming.interface_name, (np.properties.map Entry.value_name).toFinset⟩, ?_, rfl, ?_⟩
    · rw [InterfaceGenerator.generate_abstract_class, if_neg ?_]
      rw [hany]
      simp
    · exact List.card_toFinset _
  · intro np item
    exact ⟨⟨np.naming.interface_name, {item.plural_value_name}⟩, rfl, rfl, rfl⟩

def knifeAccessoriesNaming : Naming :=
  ⟨⟨some "accessories".toList, "Knife".toList⟩, "knife".toList, "knives".toList, "knife".toList⟩

def knifeKitchenNaming : Naming :=
  ⟨⟨some "kitchen".toList, "Knife".toList⟩, "knife".toList, "knives".toList, "knife".toList⟩

/-- A node with two declared sub-properties that share the value name `knife`
(same bare name registered under two modules). -/
def mealNode : NamedProperty :=
  ⟨.naming ⟨⟨none, "Meal".toList⟩, "meal".toList, "meals".toList, "meal".toList⟩,
   some ⟨[.naming knifeAccessoriesNaming, .naming knifeKitchenNaming]⟩⟩

/-- Claim C8 (counterexample): a node with two declared sub-properties whose
value names coincide synthesizes a descriptor with a single accessor, so the
required-accessor set does not contain one accessor per sub-property. -/
theorem claim_C8_counterexample :
    mealNode.properties.length = 2 ∧
    InterfaceGenerator.generate_abstract_class mealNode =
      some ⟨"IMeal".toList, {"knife".toList}⟩ ∧
    ({"knife".toList} : Finset Str).card = 1 := by
  refine ⟨by decide, ?_, by decide⟩
  decide

/-- Witness for the amended interface-accessor theorem at a concrete ordinary
node and a concrete container item. -/
theorem claim_C8_amended_interface_accessors_witness :
    (∃ t, InterfaceGenerator.generate_abstract_class mealNode = some t ∧
      t.abstract_method_names = (mealNode.properties.map Entry.value_name).toFinset ∧
      t.abstract_method_names.card = (mealNode.properties.map Entry.value_name).dedup.length)
    ∧ (∃ t, InterfaceGenerator.generate_abstract_container mealNode
          (.naming knifeAccessoriesNaming) = some t ∧
        t.abstract_method_names = {knifeAccessoriesNaming.plural_value_name} ∧
        t.abstract_method_names.card = 1) :=
  ⟨claim_C8_amended_interface_accessors.1 mealNode (by decide),
   claim_C8_amended_interface_accessors.2 mealNode knifeAccessoriesNaming⟩

def mealKitchenNaming : Naming :=
  ⟨⟨some "kitchen".toList, "Meal".toList⟩, "meal".toList, "meals".toList, "meal".toList⟩

def handleNaming : Naming :=
  ⟨⟨none, "Handle".toList⟩, "handle".toList, "handles".toList, "handle".toList⟩

/-- A module `kitchen` whose member `Meal` requires the non-scalar
sub-property `accessories.Knife` living in a different module. -/
def kitchenModule : DomainModule :=
  ⟨some "kitchen".toList,
   ⟨[.naming mealKitchenNaming]⟩,
   [⟨.naming mealKitchenNaming, some ⟨[.naming knifeAccessoriesNaming]⟩⟩,
    ⟨.naming knifeAccessoriesNaming, some ⟨[.naming handleNaming]⟩⟩,
    ⟨.naming handleNaming, none⟩]⟩

/-- Claim C4 (counterexample): the sub-property `accessories.Knife` belongs to
module `accessories`, not to the current module `kitchen`, and does not reduce
to a scalar, yet its required field is typed with the module-stripped name
`Knife`, not the fully qualified `accessories.Knife` the claim requires. -/
theorem claim_C4_counterexample :
    Entry.module_name (.naming knifeAccessoriesNaming) = some "accessories".toList ∧
    kitchenModule.module_name = some "kitchen".toList ∧
    ProtobufGenerator.requiredFieldLine kitchenModule 0 (.naming knifeAccessoriesNaming) =
      some "    required Knife knife = 1;".toList ∧
    "    required Knife knife = 1;".toList ≠
      "    required accessories.Knife knife = 1;".toList ∧
    ProtobufGenerator.get_property_file_content kitchenModule =
      some ("syntax = \"proto2\";\npackage kitchen;\nimport accessories;\nmessage Meal \x7b\n    required Knife knife = 1;\n\x7d".toList) := by
  refine ⟨by decide, by decide, by decide, by decide, by decide⟩

/-- Claim C4 (amended): in the rendered schema, every required field whose
sub-property has a definition that does not reduce to a scalar leaf is typed
with the sub-property's module-stripped class name — in every case, whether or
not the sub-property's module is the current module; the conditional
module-qualified fallback described by the claim is dead code in the source. -/
theorem claim_C4_amended_required_field_module_stripped
    (m : DomainModule) (i : Nat) (sub : Entry) (sub_def : NamedProperty)
    (hdef : m.get_named_property sub.class_name = some sub_def)
    (hval : is_value_property sub_def = false) :
    ProtobufGenerator.requiredFieldLine m i sub =
      some ("    required ".toList ++ sub.moduleless_class_name ++ [' '] ++
        sub.value_name ++ " = ".toList ++ natToStr (i + 1) ++ [';']) := by
  simp only [ProtobufGenerator.requiredFieldLine, hdef]
  rw [if_neg ?_]
  rw [hval]
  simp

/-- Witness: the amended field-typing theorem applied to the concrete
`kitchen` module and its cross-module sub-property `accessories.Knife`. -/
theorem claim_C4_amended_required_field_module_stripped_witness :
    ProtobufGenerator.requiredFieldLine kitchenModule 0 (.naming knifeAccessoriesNaming) =
      some ("    required ".toList ++
        Entry.moduleless_class_name (.naming knifeAccessoriesNaming) ++ [' '] ++
        Entry.value_name (.naming knifeAccessoriesNaming) ++ " = ".toList ++
        natToStr 1 ++ [';']) :=
  claim_C4_amended_required_field_module_stripped kitchenModule 0
    (.naming knifeAccessoriesNaming) ⟨.naming knifeAccessoriesNaming, some ⟨[.naming handleNaming]⟩⟩
    (by decide) (by decide)

/-- Full case analysis of a successful `_update_naming` call: either the graph
is unchanged (raw-name hit, or class-name hit after building the naming), or a
fresh naming was inserted under its class name. -/
theorem update_naming_spec {g : PropertyGraph} {name : Str} {g' : PropertyGraph} {e : Entry}
    (h : g.update_naming name = .ok (g', e)) :
    g'.properties_by_class_name = g.properties_by_class_name ∧
    ((g' = g ∧ (lookupA name g.namings_by_class_name = some e ∨
        (∃ naming, Naming.make name none none = .ok naming ∧
          lookupA name g.namings_by_class_name = none ∧
          lookupA naming.class_name g.namings_by_class_name = some e)))
     ∨ (∃ naming, Naming.make name none none = .ok naming ∧
          lookupA name g.namings_by_class_name = none ∧
          lookupA naming.class_name g.namings_by_class_name = none ∧
          e = .naming naming ∧
          g' = ⟨g.properties_by_class_name,
            insertA naming.class_name (.naming naming) g.namings_by_class_name⟩)) := by
  unfold PropertyGraph.update_naming at h
  split at h
  next found hraw =>
    simp only [Res.ok.injEq, Prod.mk.injEq] at h
    obtain ⟨rfl, rfl⟩ := h
    exact ⟨rfl, Or.inl ⟨rfl, Or.inl hraw⟩⟩
  next hraw =>
    split at h
    next m hmake => cases h
    next naming hmake =>
      split at h
      next hclass =>
        simp only [Res.ok.injEq, Prod.mk.injEq] at h
        obtain ⟨hg, he⟩ := h
        exact ⟨by rw [← hg], Or.inr ⟨naming, hmake, hraw, hclass, he.symm, hg.symm⟩⟩
      next found2 hclass =>
        simp only [Res.ok.injEq, Prod.mk.injEq] at h
        obtain ⟨rfl, rfl⟩ := h
        exact ⟨rfl, Or.inl ⟨rfl, Or.inr ⟨naming, hmake, hraw, hclass⟩⟩⟩

theorem update_naming_mono {g : PropertyGraph} {name : Str} {g' : PropertyGraph} {e : Entry}
    (h : g.update_naming name = .ok (g', e)) :
    ∀ k v, lookupA k g.namings_by_class_name = some v →
      lookupA k g'.namings_by_class_name = some v := by
  intro k v hk
  rcases (update_naming_spec h).2 with ⟨rfl, -⟩ | ⟨naming, -, -, hnone, -, rfl⟩
  · exact hk
  · by_cases hke : naming.class_name = k
    · rw [← hke] at hk
      rw [hnone] at hk
      cases hk
    · simpa [lookupA_insertA_ne _ _ hke] using hk

theorem add_mem_mono {pl : PropertyList} {e x : Entry} (hx : x ∈ pl.elems) :
    x ∈ (pl.add e).elems := by
  unfold PropertyList.add
  by_cases h : pl.elems.any (fun y => y.class_name = e.class_name)
  · rw [if_pos h]
    exact hx
  · rw [if_neg h]
    exact List.mem_append_left _ hx

theorem connect_mono {g : PropertyGraph} {s t : Str} {g2 : PropertyGraph}
    (h : g.connect s t = .ok g2) :
    (∀ k v, lookupA k g.namings_by_class_name = some v →
      lookupA k g2.namings_by_class_name = some v)
    ∧ (∀ k pl, lookupA k g.properties_by_class_name = some pl →
        ∃ pl2, lookupA k g2.properties_by_class_name = some pl2 ∧
          ∀ x ∈ pl.elems, x ∈ pl2.elems) := by
  unfold PropertyGraph.connect at h
  split at h
  next m h1 => cases h
  next ga source h1 =>
    split at h
    next m h2 => cases h
    next gb sink h2 =>
      simp only [Res.ok.injEq] at h
      subst h
      constructor
      · intro k v hk
        exact update_naming_mono h2 k v (update_naming_mono h1 k v hk)
      · intro k pl hk
        have hpa : ga.properties_by_class_name = g.properties_by_class_name :=
          (update_naming_spec h1).1
        have hpb : gb.properties_by_class_name = ga.properties_by_class_name :=
          (update_naming_spec h2).1
        have hkb : lookupA k gb.properties_by_class_name = some pl := by
          rw [hpb, hpa]
          exact hk
        by_cases hks : source.class_name = k
        · subst hks
          refine ⟨((lookupA source.class_name gb.properties_by_class_name).getD ⟨[]⟩).add sink,
            lookupA_insertA_self _ _ _, ?_⟩
          intro x hx
          apply add_mem_mono
          rw [hkb]
          exact hx
        · exact ⟨pl, by simpa [lookupA_insertA_ne _ _ hks] using hkb, fun x hx => hx⟩

theorem runEdges_mono {edges : List (Str × Str)} :
    ∀ {g g2 : PropertyGraph}, g.runEdges edges = .ok g2 →
      (∀ k v, lookupA k g.namings_by_class_name = some v →
        lookupA k g2.namings_by_class_name = some v)
      ∧ (∀ k pl, lookupA k g.properties_by_class_name = some pl →
          ∃ pl2, lookupA k g2.properties_by_class_name = some pl2 ∧
            ∀ x ∈ pl.elems, x ∈ pl2.elems) := by
  induction edges with
  | nil =>
    intro g g2 h
    simp only [PropertyGraph.runEdges, Res.ok.injEq] at h
    subst h
    exact ⟨fun k v hk => hk, fun k pl hk => ⟨pl, hk, fun x hx => hx⟩⟩
  | cons e rest ih =>
    intro g g2 h
    simp only [PropertyGraph.runEdges] at h
    split at h
    next m h1 => cases h
    next g1 h1 =>
      have hc := connect_mono h1
      have hr := ih h
      constructor
      · intro k v hk
        exact hr.1 k v (hc.1 k v hk)
      · intro k pl hk
        obtain ⟨pl1, hpl1, hmem1⟩ := hc.2 k pl hk
        obtain ⟨pl2, hpl2, hmem2⟩ := hr.2 k pl1 hpl1
        exact ⟨pl2, hpl2, fun x hx => hmem2 x (hmem1 x hx)⟩

theorem get_properties_from_eq (g : PropertyGraph) (edges : List (Str × Str)) :
    g.get_properties_from edges =
      match g.runEdges edges with
      | .ok g2 => .ok (g2, g2.propertiesList)
      | .validationError m => .validationError m := by
  unfold PropertyGraph.get_properties_from
  have hfilter : g.properties_by_class_name.filter (fun kv => !isNamingValue kv.2) =
      g.properties_by_class_name := by
    simp [isNamingValue]
  rw [hfilter]
  show (match g.runEdges edges with
    | Res.validationError m => Res.validationError m
    | Res.ok g2 => Res.ok (g2, g2.propertiesList)) =
    (match g.runEdges edges with
    | Res.ok g2 => Res.ok (g2, g2.propertiesList)
    | Res.validationError m => Res.validationError m)
  rcases g.runEdges edges with g2 | m <;> rfl

/-- Claim C1 (amended): `get_properties_from` does not clear the graph: no
previously registered naming is removed or replaced by a call, and every
previously recorded adjacency binding survives with at least its old members —
so the returned node sequence reflects all state accumulated before the call,
not only the term passed to it. The dictionary rebuild at the start of the
call keeps every binding, because every stored value is a `PropertyList` and
the rebuild only drops values of runtime class `Naming`. -/
theorem claim_C1_amended_state_retained (g : PropertyGraph) (edges : List (Str × Str))
    (g2 : PropertyGraph) (out : List NamedProperty)
    (h : g.get_properties_from edges = .ok (g2, out)) :
    (∀ k v, lookupA k g.namings_by_class_name = some v →
      lookupA k g2.namings_by_class_name = some v)
    ∧ (∀ k pl, lookupA k g.properties_by_class_name = some pl →
        ∃ pl2, lookupA k g2.properties_by_class_name = some pl2 ∧
          ∀ x ∈ pl.elems, x ∈ pl2.elems) := by
  rw [get_properties_from_eq] at h
  split at h
  next g3 hrun =>
    simp only [Res.ok.injEq, Prod.mk.injEq] at h
    obtain ⟨rfl, -⟩ := h
    exact runEdges_mono hrun
  next m hrun => cases h

def namingSpeed : Naming :=
  ⟨⟨none, "Speed".toList⟩, "speed".toList, "speeds".toList, "speed".toList⟩

def namingDistance : Naming :=
  ⟨⟨none, "Distance".toList⟩, "distance".toList, "distances".toList, "distance".toList⟩

def namingDuration : Naming :=
  ⟨⟨none, "Duration".toList⟩, "duration".toList, "durations".toList, "duration".toList⟩

def c1EdgesA : List (Str × Str) := [("speed".toList, "duration".toList)]

def c1EdgesB : List (Str × Str) := [("speed".toList, "distance".toList)]

/-- Evaluate a term, then evaluate a second term on the same graph instance. -/
def c1SecondCall : Res (PropertyGraph × List NamedProperty) :=
  match PropertyGraph.cleared.get_properties_from c1EdgesA with
  | .ok (g1, _) => g1.get_properties_from c1EdgesB
  | .validationError m => .validationError m

/-- Claim C1 (counterexample): evaluating `speed * distance` on a fresh graph
yields two nodes, but evaluating `speed * duration` first and then the same
term `speed * distance` on the same instance yields three nodes, with the
stale `Duration` sub-property still attached to `Speed` — so the call does not
clear previously registered namings or adjacency, and the node sequence does
not depend only on the term passed to the call. -/
theorem claim_C1_counterexample :
    outputObserved (PropertyGraph.cleared.get_properties_from c1EdgesB) =
      some [(.naming namingDistance, []), (.naming namingSpeed, [.naming namingDistance])] ∧
    outputObserved c1SecondCall =
      some [(.naming namingDistance, []), (.naming namingDuration, []),
        (.naming namingSpeed, [.naming namingDistance, .naming namingDuration])] ∧
    outputObserved c1SecondCall ≠
      outputObserved (PropertyGraph.cleared.get_properties_from c1EdgesB) := by
  refine ⟨by decide, by decide, by decide⟩

/-- A pre-populated graph: `Speed` and `Duration` registered, `Speed` already
requiring `Duration`. -/
def gC1 : PropertyGraph :=
  ⟨[("Speed".toList, ⟨[.naming namingDuration]⟩)],
   [("Speed".toList, .naming namingSpeed), ("Duration".toList, .naming namingDuration)]⟩

/-- The state after evaluating `speed * distance` on `gC1`. -/
def gC1Final : PropertyGraph :=
  ⟨[("Speed".toList, ⟨[.naming namingDuration, .naming namingDistance]⟩)],
   [("Speed".toList, .naming namingSpeed), ("Duration".toList, .naming namingDuration),
    ("Distance".toList, .naming namingDistance)]⟩

def outC1Final : List NamedProperty :=
  [⟨.naming namingDistance, none⟩, ⟨.naming namingDuration, none⟩,
   ⟨.naming namingSpeed, some ⟨[.naming namingDuration, .naming namingDistance]⟩⟩]

/-- Witness: on the pre-populated graph, the call retains the `Duration`
naming and the old `Speed → Duration` adjacency member. -/
theorem claim_C1_amended_state_retained_witness :
    lookupA "Duration".toList gC1Final.namings_by_class_name = some (.naming namingDuration) ∧
    (∃ pl2, lookupA "Speed".toList gC1Final.properties_by_class_name = some pl2 ∧
      ∀ x ∈ (⟨[.naming namingDuration]⟩ : PropertyList).elems, x ∈ pl2.elems) :=
  ⟨(claim_C1_amended_state_retained gC1 c1EdgesB gC1Final outC1Final (by decide)).1
      "Duration".toList (.naming namingDuration) (by decide),
   (claim_C1_amended_state_retained gC1 c1EdgesB gC1Final outC1Final (by decide)).2
      "Speed".toList ⟨[.naming namingDuration]⟩ (by decide)⟩

theorem make_none_ok {name : Str} {naming : Naming}
    (h : Naming.make name none none = .ok naming) :
    matchesIdentifierPrefix name = true ∧ naming.class_name = Naming.camel_case name := by
  unfold Naming.make at h
  by_cases hp : matchesIdentifierPrefix name = true
  · rw [if_neg (by simp [hp])] at h
    rw [if_neg (by simp)] at h
    simp only [Res.ok.injEq] at h
    subst h
    refine ⟨hp, ?_⟩
    simp [Naming.class_name, TypeDescriptor.class_name]
  · rw [if_pos (by simpa using hp)] at h
    cases h

theorem make_ok_valid {name : Str} {plural module_name : Option Str} {naming : Naming}
    (h : Naming.make name plural module_name = .ok naming) :
    matchesIdentifierPrefix name = true := by
  unfold Naming.make at h
  by_cases hp : matchesIdentifierPrefix name = true
  · exact hp
  · rw [if_pos (by simpa using hp)] at h
    cases h

theorem update_naming_raw_hit {g : PropertyGraph} {n : Str} {e : Entry}
    (h : lookupA n g.namings_by_class_name = some e) :
    g.update_naming n = .ok (g, e) := by
  unfold PropertyGraph.update_naming
  rw [h]

theorem update_naming_camel_hit {g : PropertyGraph} {n : Str} {naming : Naming} {e : Entry}
    (h1 : lookupA n g.namings_by_class_name = none)
    (h2 : Naming.make n none none = .ok naming)
    (h3 : lookupA naming.class_name g.namings_by_class_name = some e) :
    g.update_naming n = .ok (g, e) := by
  simp only [PropertyGraph.update_naming, h1, h2, h3]

theorem insertA_self_eq {β : Type} {k : Str} {v : β} {l : List (Str × β)}
    (h : lookupA k l = some v) : insertA k v l = l := by
  induction l with
  | nil => cases h
  | cons kv t ih =>
    obtain ⟨k', v'⟩ := kv
    by_cases hk : k' = k
    · subst hk
      rw [lookupA, if_pos rfl] at h
      simp only [Option.some.injEq] at h
      subst h
      rw [insertA, if_pos rfl]
    · rw [lookupA, if_neg hk] at h
      rw [insertA, if_neg hk, ih h]

theorem update_none_stable {g : PropertyGraph} {m : Str} {g' : PropertyGraph} {e : Entry}
    {n : Str} (hn : lookupA n g.namings_by_class_name = none)
    (hpre : matchesIdentifierPrefix n = true)
    (h : g.update_naming m = .ok (g', e)) :
    lookupA n g'.namings_by_class_name = none := by
  rcases (update_naming_spec h).2 with ⟨rfl, -⟩ | ⟨naming, hmake, -, -, -, rfl⟩
  · exact hn
  · have hcamel := (make_none_ok hmake).2
    have hkey : naming.class_name ≠ n := by
      intro hkn
      have hfalse : matchesIdentifierPrefix naming.class_name = false := by
        rw [hcamel]
        exact camel_not_prefix (make_none_ok hmake).1
      rw [hkn, hpre] at hfalse
      cases hfalse
    simpa [lookupA_insertA_ne _ _ hkey] using hn

theorem connect_none_stable {g : PropertyGraph} {s t : Str} {g2 : PropertyGraph}
    {n : Str} (hn : lookupA n g.namings_by_class_name = none)
    (hpre : matchesIdentifierPrefix n = true)
    (h : g.connect s t = .ok g2) :
    lookupA n g2.namings_by_class_name = none := by
  unfold PropertyGraph.connect at h
  split at h
  next m h1 => cases h
  next ga source h1 =>
    split at h
    next m h2 => cases h
    next gb sink h2 =>
      simp only [Res.ok.injEq] at h
      have hng : g2.namings_by_class_name = gb.namings_by_class_name := by
        rw [← h]
      rw [hng]
      exact update_none_stable (update_none_stable hn hpre h1) hpre h2

theorem cn_mem_of_mem_mono {pl pl2 : PropertyList} {cn : Str}
    (hsub : ∀ x ∈ pl.elems, x ∈ pl2.elems)
    (h : cn ∈ pl.elems.map Entry.class_name) :
    cn ∈ pl2.elems.map Entry.class_name := by
  obtain ⟨x, hx, rfl⟩ := List.mem_map.mp h
  exact List.mem_map.mpr ⟨x, hsub x hx, rfl⟩

theorem add_self_cn_mem (pl : PropertyList) (e : Entry) :
    e.class_name ∈ (pl.add e).elems.map Entry.class_name :=
  (add_class_names_mem pl e e.class_name).mpr (Or.inr rfl)

/-- The state of a graph that has already fully absorbed the edge `(s, t)`:
both endpoints resolve without any insertion, and the sink's class name is
already a member of the source's adjacency list. -/
def Saturated (g : PropertyGraph) (s t : Str) : Prop :=
  ∃ es et pl, g.update_naming s = .ok (g, es) ∧ g.update_naming t = .ok (g, et) ∧
    lookupA es.class_name g.properties_by_class_name = some pl ∧
    et.class_name ∈ pl.elems.map Entry.class_name

theorem sat_connect {g : PropertyGraph} {s t : Str} (h : Saturated g s t) :
    g.connect s t = .ok g := by
  obtain ⟨es, et, pl, hs, ht, hpl, hmem⟩ := h
  simp only [PropertyGraph.connect, hs, ht]
  simp only [hpl, Option.getD_some]
  have hadd : pl.add et = pl := by
    unfold PropertyList.add
    rw [if_pos ?_]
    rw [List.any_eq_true]
    obtain ⟨x, hx, hxe⟩ := List.mem_map.mp hmem
    exact ⟨x, hx, by simpa using hxe⟩
  rw [hadd, insertA_self_eq hpl]

/-- A successful `update_naming` that left the state unchanged was a raw-name
hit or a class-name hit; the fresh-insert branch always changes the state. -/
theorem update_naming_fixpoint_cases {g : PropertyGraph} {n : Str} {e : Entry}
    (h : g.update_naming n = .ok (g, e)) :
    lookupA n g.namings_by_class_name = some e ∨
      (∃ naming, Naming.make n none none = .ok naming ∧
        lookupA n g.namings_by_class_name = none ∧
        lookupA naming.class_name g.namings_by_class_name = some e) := by
  rcases (update_naming_spec h).2 with ⟨-, hcase⟩ | ⟨naming, -, -, hnone, -, heq⟩
  · exact hcase
  · exfalso
    have : lookupA naming.class_name g.namings_by_class_name =
        some (.naming naming) := by
      conv_lhs => rw [heq]
      exact lookupA_insertA_self _ _ _
    rw [hnone] at this
    cases this

theorem sat_preserved_connect {g : PropertyGraph} {s t u w : Str} {g2 : PropertyGraph}
    (hsat : Saturated g s t) (hstep : g.connect u w = .ok g2) :
    Saturated g2 s t := by
  obtain ⟨es, et, pl, hs, ht, hpl, hmem⟩ := hsat
  have hmono := connect_mono hstep
  have hs2 : g2.update_naming s = .ok (g2, es) := by
    rcases update_naming_fixpoint_cases hs with hraw | ⟨naming, hmake, hnone, hfound⟩
    · exact update_naming_raw_hit (hmono.1 _ _ hraw)
    · exact update_naming_camel_hit
        (connect_none_stable hnone (make_ok_valid hmake) hstep) hmake
        (hmono.1 _ _ hfound)
  have ht2 : g2.update_naming t = .ok (g2, et) := by
    rcases update_naming_fixpoint_cases ht with hraw | ⟨naming, hmake, hnone, hfound⟩
    · exact update_naming_raw_hit (hmono.1 _ _ hraw)
    · exact update_naming_camel_hit
        (connect_none_stable hnone (make_ok_valid hmake) hstep) hmake
        (hmono.1 _ _ hfound)
  obtain ⟨pl2, hpl2, hsub⟩ := hmono.2 _ _ hpl
  exact ⟨es, et, pl2, hs2, ht2, hpl2, cn_mem_of_mem_mono hsub hmem⟩

/-- After a successful `connect`, the edge is saturated. -/
theorem connect_sat {g : PropertyGraph} {s t : Str} {g2 : PropertyGraph}
    (h : g.connect s t = .ok g2) : Saturated g2 s t := by
  have hmain := h
  unfold PropertyGraph.connect at h
  split at h
  next m h1 => cases h
  next ga source h1 =>
    split at h
    next m h2 => cases h
    next gb sink h2 =>
      simp only [Res.ok.injEq] at h
      have hnamings : g2.namings_by_class_name = gb.namings_by_class_name := by
        rw [← h]
      have hprops : g2.properties_by_class_name =
          insertA source.class_name
            (((lookupA source.class_name gb.properties_by_class_name).getD ⟨[]⟩).add sink)
            gb.properties_by_class_name := by
        rw [← h]
      have hgbga : gb.namings_by_class_name = gb.namings_by_class_name := rfl
      -- endpoint s resolves at g2 to source
      have hs2 : g2.update_naming s = .ok (g2, source) := by
        rcases (update_naming_spec h1).2 with ⟨rfl, hcase⟩ | ⟨naming, hmake, hnone, -, rfl, rfl⟩
        · rcases hcase with hraw | ⟨naming, hmake, hnone, hfound⟩
          · apply update_naming_raw_hit
            rw [hnamings]
            exact update_naming_mono h2 _ _ hraw
          · apply update_naming_camel_hit ?_ hmake ?_
            · rw [hnamings]
              exact update_none_stable hnone (make_ok_valid hmake) h2
            · rw [hnamings]
              exact update_naming_mono h2 _ _ hfound
        · apply update_naming_camel_hit ?_ hmake ?_
          · rw [hnamings]
            apply update_none_stable ?_ (make_ok_valid hmake) h2
            have hkey : naming.class_name ≠ s := by
              intro hkn
              have hfalse : matchesIdentifierPrefix naming.class_name = false := by
                rw [(make_none_ok hmake).2]
                exact camel_not_prefix (make_none_ok hmake).1
              rw [hkn, make_ok_valid hmake] at hfalse
              cases hfalse
            simpa [lookupA_insertA_ne _ _ hkey] using hnone
          · rw [hnamings]
            apply update_naming_mono h2
            exact lookupA_insertA_self _ _ _
      -- endpoint t resolves at g2 to sink
      have ht2 : g2.update_naming t = .ok (g2, sink) := by
        rcases (update_naming_spec h2).2 with ⟨rfl, hcase⟩ | ⟨naming, hmake, hnone, -, rfl, rfl⟩
        · rcases hcase with hraw | ⟨naming, hmake, hnone, hfound⟩
          · apply update_naming_raw_hit
            rw [hnamings]
            exact hraw
          · apply update_naming_camel_hit ?_ hmake ?_
            · rw [hnamings]
              exact hnone
            · rw [hnamings]
              exact hfound
        · apply update_naming_camel_hit ?_ hmake ?_
          · rw [hnamings]
            have hkey : naming.class_name ≠ t := by
              intro hkn
              have hfalse : matchesIdentifierPrefix naming.class_name = false := by
                rw [(make_none_ok hmake).2]
                exact camel_not_prefix (make_none_ok hmake).1
              rw [hkn, make_ok_valid hmake] at hfalse
              cases hfalse
            simpa [lookupA_insertA_ne _ _ hkey] using hnone
          · rw [hnamings]
            exact lookupA_insertA_self _ _ _
      refine ⟨source, sink,
        ((lookupA source.class_name gb.properties_by_class_name).getD ⟨[]⟩).add sink,
        hs2, ht2, ?_, ?_⟩
      · rw [hprops]
        exact lookupA_insertA_self _ _ _
      · exact add_self_cn_mem _ sink

theorem sat_preserved_run {edges : List (Str × Str)} :
    ∀ {g g2 : PropertyGraph} {s t : Str}, Saturated g s t →
      g.runEdges edges = .ok g2 → Saturated g2 s t := by
  induction edges with
  | nil =>
    intro g g2 s t hsat h
    simp only [PropertyGraph.runEdges, Res.ok.injEq] at h
    subst h
    exact hsat
  | cons e rest ih =>
    intro g g2 s t hsat h
    simp only [PropertyGraph.runEdges] at h
    split at h
    next m h1 => cases h
    next g1 h1 => exact ih (sat_preserved_connect hsat h1) h

theorem runEdges_saturates {edges : List (Str × Str)} :
    ∀ {g gn : PropertyGraph}, g.runEdges edges = .ok gn →
      ∀ e ∈ edges, Saturated gn e.1 e.2 := by
  induction edges with
  | nil =>
    intro g gn _ e he
    cases he
  | cons e0 rest ih =>
    intro g gn h e he
    simp only [PropertyGraph.runEdges] at h
    split at h
    next m h1 => cases h
    next g1 h1 =>
      rcases List.mem_cons.mp he with rfl | hrest
      · exact sat_preserved_run (connect_sat h1) h
      · exact ih h e hrest

theorem runEdges_saturated_noop {edges : List (Str × Str)} :
    ∀ {g : PropertyGraph}, (∀ e ∈ edges, Saturated g e.1 e.2) →
      g.runEdges edges = .ok g := by
  induction edges with
  | nil =>
    intro g _
    rfl
  | cons e0 rest ih =>
    intro g hsat
    have hc : g.connect e0.1 e0.2 = .ok g :=
      sat_connect (hsat e0 (List.mem_cons_self e0 rest))
    simp only [PropertyGraph.runEdges, hc]
    exact ih (fun e he => hsat e (List.mem_cons_of_mem e0 he))

/-- Claim C6: calling evaluate-and-collect on the same term twice in
succession on the same graph instance, with nothing in between, returns the
same node sequence both times (and the second call does not even change the
graph state). -/
theorem claim_C6_evaluate_twice_idempotent (g : PropertyGraph) (t : Term)
    (g1 : PropertyGraph) (out1 : List NamedProperty)
    (h : g.get_properties_from_term t = .ok (g1, out1)) :
    g1.get_properties_from_term t = .ok (g1, out1) := by
  unfold PropertyGraph.get_properties_from_term at h ⊢
  rw [get_properties_from_eq] at h ⊢
  split at h
  next g3 hrun =>
    simp only [Res.ok.injEq, Prod.mk.injEq] at h
    obtain ⟨rfl, rfl⟩ := h
    have hnoop : g3.runEdges t.evalEdges = .ok g3 :=
      runEdges_saturated_noop (runEdges_saturates hrun)
    rw [hnoop]
  next m hrun => cases h

def speedTermC6 : Term :=
  .prod (.leaf "speed".toList) (.sum (.leaf "distance".toList) (.leaf "duration".toList))

def gC6Final : PropertyGraph :=
  ⟨[("Speed".toList, ⟨[.naming namingDistance, .naming namingDuration]⟩)],
   [("Speed".toList, .naming namingSpeed), ("Distance".toList, .naming namingDistance),
    ("Duration".toList, .naming namingDuration)]⟩

def outC6 : List NamedProperty :=
  [⟨.naming namingDistance, none⟩, ⟨.naming namingDuration, none⟩,
   ⟨.naming namingSpeed, some ⟨[.naming namingDistance, .naming namingDuration]⟩⟩]

/-- Witness: evaluating `speed * (distance + duration)` twice from the empty
graph returns the same node sequence both times. -/
theorem claim_C6_evaluate_twice_idempotent_witness :
    gC6Final.get_properties_from_term speedTermC6 = .ok (gC6Final, outC6) :=
  claim_C6_evaluate_twice_idempotent PropertyGraph.cleared speedTermC6 gC6Final outC6
    (by decide)

theorem wrapped_flow_edges (t : Term) :
    (Term.prod (Term.prod Term.O t) Term.O).flow.edges = t.flow.edges := by
  simp [Term.flow]

theorem evalEdges_eq (t : Term) : t.evalEdges = t.flow.edges.dedup := by
  unfold Term.evalEdges
  rw [wrapped_flow_edges]

theorem evalEdges_perm_of_algebraEq {t1 t2 : Term} (h : Term.algebraEq t1 t2) :
    t1.evalEdges.Perm t2.evalEdges := by
  rw [evalEdges_eq, evalEdges_eq]
  rw [List.perm_ext_iff_of_nodup (List.nodup_dedup _) (List.nodup_dedup _)]
  intro e
  rw [List.mem_dedup, List.mem_dedup]
  exact h e

def cTermA : Term :=
  .sum (.prod (.leaf "foo_bar".toList) (.leaf "alpha".toList))
    (.prod (.leaf "foo__bar".toList) (.leaf "beta".toList))

def cTermB : Term :=
  .sum (.prod (.leaf "foo__bar".toList) (.leaf "beta".toList))
    (.prod (.leaf "foo_bar".toList) (.leaf "alpha".toList))

/-- Claim C5 (counterexample): the two sums `foo_bar*alpha + foo__bar*beta`
and `foo__bar*beta + foo_bar*alpha` denote the same edge set, so the algebra
considers them equal, but evaluated from the same (empty) graph state they
yield different node sequences: the two leaf names collide on the class name
`FooBar`, and whichever is evaluated first contributes the merged node's
naming (`value` `foo_bar` versus `foo__bar`). -/
theorem claim_C5_counterexample :
    Term.algebraEq cTermA cTermB ∧
    outputObserved (PropertyGraph.cleared.get_properties_from_term cTermA) ≠
      outputObserved (PropertyGraph.cleared.get_properties_from_term cTermB) := by
  constructor
  · intro e
    simp only [cTermA, cTermB, Term.flow]
    simp only [List.mem_append, List.mem_cons]
    tauto
  · decide

/-- The naming `Naming(name)` builds for a name that passes the prefix check. -/
def mkNaming (name : Str) : Naming :=
  ⟨⟨none, Naming.camel_case name⟩, name, Naming.plural name,
   name.map (fun c => if c = '_' then ' ' else c)⟩

theorem make_valid_eq {name : Str} (h : matchesIdentifierPrefix name = true) :
    Naming.make name none none = .ok (mkNaming name) := by
  unfold Naming.make
  rw [if_neg (by simp [h])]
  rw [if_neg (by simp)]
  rfl

theorem mkNaming_class_name (name : Str) :
    (mkNaming name).class_name = Naming.camel_case name := by
  simp [mkNaming, Naming.class_name, TypeDescriptor.class_name]

/-- The pure effect of `_update_naming` on the namings dictionary: a fresh
name (raw and class-name lookups both missing) inserts its naming under its
class name; anything else leaves the dictionary unchanged. -/
def updNamings (nam : List (Str × Entry)) (n : Str) : List (Str × Entry) :=
  match lookupA n nam with
  | some _ => nam
  | none =>
    match lookupA (Naming.camel_case n) nam with
    | some _ => nam
    | none => insertA (Naming.camel_case n) (.naming (mkNaming n)) nam

/-- The entry `_update_naming` resolves a name to, as a function of the
namings dictionary. -/
def resolveEntryV (nam : List (Str × Entry)) (n : Str) : Entry :=
  match lookupA n nam with
  | some e => e
  | none =>
    match lookupA (Naming.camel_case n) nam with
    | some e => e
    | none => .naming (mkNaming n)

theorem update_naming_ok_of_valid {g : PropertyGraph} {n : Str}
    (h : matchesIdentifierPrefix n = true) :
    g.update_naming n =
      .ok (⟨g.properties_by_class_name, updNamings g.namings_by_class_name n⟩,
        resolveEntryV g.namings_by_class_name n) := by
  unfold PropertyGraph.update_naming updNamings resolveEntryV
  rcases h1 : lookupA n g.namings_by_class_name with _ | found
  · rw [make_valid_eq h]
    rcases h2 : lookupA (Naming.camel_case n) g.namings_by_class_name with _ | found2
    · simp only [mkNaming_class_name]
      rw [h2]
    · simp only [mkNaming_class_name]
      rw [h2]
  · rfl

theorem camel_ne_valid {m n : Str} (hm : matchesIdentifierPrefix m = true)
    (hn : matchesIdentifierPrefix n = true) : Naming.camel_case m ≠ n := by
  intro h
  have := camel_not_prefix hm
  rw [h, hn] at this
  cases this

/-- A general lookup computation for `insertA`. -/
theorem lookupA_insertA {β : Type} (k k2 : Str) (v : β) (l : List (Str × β)) :
    lookupA k2 (insertA k v l) = if k = k2 then some v else lookupA k2 l := by
  by_cases h : k = k2
  · subst h
    rw [if_pos rfl]
    exact lookupA_insertA_self _ _ _
  · rw [if_neg h]
    exact lookupA_insertA_ne _ _ h

/-- Updating the dictionary with name `m` does not change the raw-name lookup
of any valid name (all inserted keys are camel-cased, hence invalid). -/
theorem updNamings_lookup_valid_stable {nam : List (Str × Entry)} {m n : Str}
    (hm : matchesIdentifierPrefix m = true) (hn : matchesIdentifierPrefix n = true) :
    lookupA n (updNamings nam m) = lookupA n nam := by
  unfold updNamings
  rcases lookupA m nam with _ | e
  · rcases lookupA (Naming.camel_case m) nam with _ | e
    · rw [lookupA_insertA]
      rw [if_neg (camel_ne_valid hm hn)]
    · rfl
  · rfl

/-- Pointwise lookup equality together with key-multiset equality of two
association lists. -/
def AEquiv {β : Type} (l1 l2 : List (Str × β)) : Prop :=
  (l1.map Prod.fst).Perm (l2.map Prod.fst) ∧ ∀ k, lookupA k l1 = lookupA k l2

theorem AEquiv_refl {β : Type} (l : List (Str × β)) : AEquiv l l :=
  ⟨List.Perm.refl _, fun _ => rfl⟩

theorem AEquiv_trans {β : Type} {l1 l2 l3 : List (Str × β)}
    (h1 : AEquiv l1 l2) (h2 : AEquiv l2 l3) : AEquiv l1 l3 :=
  ⟨h1.1.trans h2.1, fun k => (h1.2 k).trans (h2.2 k)⟩

theorem AEquiv_insertA {β : Type} {l1 l2 : List (Str × β)} (h : AEquiv l1 l2)
    (k : Str) (v : β) : AEquiv (insertA k v l1) (insertA k v l2) := by
  constructor
  · rw [keys_insertA, keys_insertA]
    by_cases hk : k ∈ l1.map Prod.fst
    · have hk2 : k ∈ l2.map Prod.fst := by
        rw [← lookupA_isSome_iff_mem_keys] at hk ⊢
        rw [← h.2 k]
        exact hk
      rw [if_pos hk, if_pos hk2]
      exact h.1
    · have hk2 : k ∉ l2.map Prod.fst := by
        rw [← lookupA_isSome_iff_mem_keys] at hk ⊢
        rw [← h.2 k]
        exact hk
      rw [if_neg hk, if_neg hk2]
      exact h.1.append (List.Perm.refl _)
  · intro k2
    rw [lookupA_insertA, lookupA_insertA]
    by_cases hk : k = k2
    · rw [if_pos hk, if_pos hk]
    · rw [if_neg hk, if_neg hk, h.2 k2]

theorem updNamings_congr {l1 l2 : List (Str × Entry)} (h : AEquiv l1 l2) (n : Str) :
    AEquiv (updNamings l1 n) (updNamings l2 n) := by
  unfold updNamings
  rw [h.2 n]
  rcases lookupA n l2 with _ | e
  · rw [h.2 (Naming.camel_case n)]
    rcases lookupA (Naming.camel_case n) l2 with _ | e
    · exact AEquiv_insertA h _ _
    · exact h
  · exact h

theorem resolveEntryV_congr {l1 l2 : List (Str × Entry)} (h : AEquiv l1 l2) (n : Str) :
    resolveEntryV l1 n = resolveEntryV l2 n := by
  unfold resolveEntryV
  rw [h.2 n, h.2 (Naming.camel_case n)]

/-- Lookup computation for one naming update. -/
theorem updNamings_lookup {nam : List (Str × Entry)} {n : Str} (k : Str) :
    lookupA k (updNamings nam n) =
      if lookupA n nam = none ∧ lookupA (Naming.camel_case n) nam = none ∧
          k = Naming.camel_case n
      then some (.naming (mkNaming n)) else lookupA k nam := by
  unfold updNamings
  rcases h1 : lookupA n nam with _ | e
  · rcases h2 : lookupA (Naming.camel_case n) nam with _ | e
    · rw [lookupA_insertA]
      by_cases hk : Naming.camel_case n = k
      · rw [if_pos hk, if_pos ⟨rfl, rfl, hk.symm⟩]
      · rw [if_neg hk, if_neg ?_]
        rintro ⟨-, -, hkk⟩
        exact hk hkk.symm
    · rw [if_neg ?_]
      rintro ⟨-, hc, -⟩
      cases hc
  · rw [if_neg ?_]
    rintro ⟨hr, -, -⟩
    cases hr

/-- Key computation for one naming update. -/
theorem updNamings_keys {nam : List (Str × Entry)} {n : Str} :
    (updNamings nam n).map Prod.fst =
      if lookupA n nam = none ∧ lookupA (Naming.camel_case n) nam = none
      then nam.map Prod.fst ++ [Naming.camel_case n] else nam.map Prod.fst := by
  unfold updNamings
  rcases h1 : lookupA n nam with _ | e
  · rcases h2 : lookupA (Naming.camel_case n) nam with _ | e
    · have hnotmem : Naming.camel_case n ∉ nam.map Prod.fst := by
        rw [← lookupA_isSome_iff_mem_keys, h2]
        simp
      rw [keys_insertA, if_neg hnotmem, if_pos ⟨rfl, rfl⟩]
    · rw [if_neg ?_]
      rintro ⟨-, hc⟩
      cases hc
  · rw [if_neg ?_]
    rintro ⟨hr, -⟩
    cases hr

/-- Updating with `m` changes the lookup of `camel n` only when the two camel
cases coincide; resolution of `n` is stable under such updates. -/
theorem resolveEntryV_stable {nam : List (Str × Entry)} {m n : Str}
    (hm : matchesIdentifierPrefix m = true) (hn : matchesIdentifierPrefix n = true)
    (hinj : Naming.camel_case m = Naming.camel_case n → m = n) :
    resolveEntryV (updNamings nam m) n = resolveEntryV nam n := by
  unfold resolveEntryV
  rw [updNamings_lookup_valid_stable hm hn]
  rcases h1 : lookupA n nam with _ | e
  · rw [updNamings_lookup (Naming.camel_case n)]
    by_cases hcc : Naming.camel_case n = Naming.camel_case m
    · have hmn : m = n := hinj hcc.symm
      subst hmn
      by_cases hfresh : lookupA m nam = none ∧
          lookupA (Naming.camel_case m) nam = none ∧
          Naming.camel_case m = Naming.camel_case m
      · rw [if_pos hfresh]
        rw [hfresh.2.1]
      · rw [if_neg hfresh]
    · rw [if_neg ?_]
      rintro ⟨-, -, hx⟩
      exact hcc hx
  · rfl

theorem perm_snoc_snoc {α : Type} (b : List α) (x y : α) :
    ((b ++ [x]) ++ [y]).Perm ((b ++ [y]) ++ [x]) := by
  rw [List.append_assoc, List.append_assoc]
  exact List.Perm.append_left b (List.Perm.swap y x [])

/-- Two updates with valid names whose camel cases are distinct or identical
commute up to `AEquiv`. -/
theorem updNamings_comm {nam : List (Str × Entry)} {m n : Str}
    (hm : matchesIdentifierPrefix m = true) (hn : matchesIdentifierPrefix n = true)
    (hinj : Naming.camel_case m = Naming.camel_case n → m = n) :
    AEquiv (updNamings (updNamings nam m) n) (updNamings (updNamings nam n) m) := by
  by_cases hmn : m = n
  · subst hmn
    exact AEquiv_refl _
  · have hcc : Naming.camel_case m ≠ Naming.camel_case n := fun h => hmn (hinj h)
    have hcnm : lookupA (Naming.camel_case n) (updNamings nam m) =
        lookupA (Naming.camel_case n) nam := by
      rw [updNamings_lookup]
      rw [if_neg ?_]
      rintro ⟨-, -, hx⟩
      exact hcc hx.symm
    have hcmn : lookupA (Naming.camel_case m) (updNamings nam n) =
        lookupA (Naming.camel_case m) nam := by
      rw [updNamings_lookup]
      rw [if_neg ?_]
      rintro ⟨-, -, hx⟩
      exact hcc.symm hx.symm
    constructor
    · rw [updNamings_keys, updNamings_keys, updNamings_keys, updNamings_keys]
      rw [updNamings_lookup_valid_stable hm hn, updNamings_lookup_valid_stable hn hm,
        hcnm, hcmn]
      by_cases hFm : lookupA m nam = none ∧ lookupA (Naming.camel_case m) nam = none
      · by_cases hFn : lookupA n nam = none ∧ lookupA (Naming.camel_case n) nam = none
        · rw [if_pos hFn, if_pos hFm, if_pos hFm, if_pos hFn]
          exact perm_snoc_snoc _ _ _
        · rw [if_neg hFn, if_pos hFm, if_pos hFm, if_neg hFn]
      · by_cases hFn : lookupA n nam = none ∧ lookupA (Naming.camel_case n) nam = none
        · rw [if_pos hFn, if_neg hFm, if_neg hFm, if_pos hFn]
        · rw [if_neg hFn, if_neg hFm, if_neg hFm, if_neg hFn]
    · intro k
      rw [updNamings_lookup k]
      rw [updNamings_lookup k]
      rw [updNamings_lookup k]
      rw [updNamings_lookup k]
      rw [updNamings_lookup_valid_stable hm hn, hcnm]
      rw [updNamings_lookup_valid_stable hn hm, hcmn]
      by_cases hC1 : lookupA n nam = none ∧ lookupA (Naming.camel_case n) nam = none ∧
          k = Naming.camel_case n
      · rw [if_pos hC1]
        rw [if_neg ?_]
        · rw [if_pos hC1]
        · rintro ⟨-, -, hx⟩
          exact hcc (hx.symm.trans hC1.2.2)
      · rw [if_neg hC1]
        by_cases hC2 : lookupA m nam = none ∧ lookupA (Naming.camel_case m) nam = none ∧
            k = Naming.camel_case m
        · rw [if_pos hC2, if_pos hC2]
        · rw [if_neg hC2, if_neg hC2, if_neg hC1]

def updNamingsFold (nam : List (Str × Entry)) (names : List Str) : List (Str × Entry) :=
  names.foldl updNamings nam

theorem updNamingsFold_congr {l1 l2 : List (Str × Entry)} (names : List Str)
    (h : AEquiv l1 l2) :
    AEquiv (updNamingsFold l1 names) (updNamingsFold l2 names) := by
  induction names generalizing l1 l2 with
  | nil => exact h
  | cons x rest ih => exact ih (updNamings_congr h x)

/-- Permutation invariance of the naming updates: for valid, camel-injective
names, any two orders of the same multiset of updates produce equivalent
dictionaries. -/
theorem updNamingsFold_perm {names1 names2 : List Str} (hperm : names1.Perm names2)
    (hval : ∀ x ∈ names1, matchesIdentifierPrefix x = true)
    (hinj : ∀ x ∈ names1, ∀ y ∈ names1,
      Naming.camel_case x = Naming.camel_case y → x = y) :
    ∀ nam : List (Str × Entry),
      AEquiv (updNamingsFold nam names1) (updNamingsFold nam names2) := by
  induction hperm with
  | nil =>
    intro nam
    exact AEquiv_refl _
  | cons x l ih =>
    intro nam
    have hval' : ∀ y ∈ _, matchesIdentifierPrefix y = true :=
      fun y hy => hval y (List.mem_cons_of_mem x hy)
    have hinj' : ∀ a ∈ _, ∀ b ∈ _, Naming.camel_case a = Naming.camel_case b → a = b :=
      fun a ha b hb => hinj a (List.mem_cons_of_mem x ha) b (List.mem_cons_of_mem x hb)
    exact ih hval' hinj' (updNamings nam x)
  | swap x y l =>
    intro nam
    have hx : matchesIdentifierPrefix x = true := hval x (by simp)
    have hy : matchesIdentifierPrefix y = true := hval y (by simp)
    have hxy : Naming.camel_case y = Naming.camel_case x → y = x :=
      fun h => hinj y (by simp) x (by simp) h
    exact updNamingsFold_congr l (updNamings_comm hy hx hxy)
  | trans h12 h23 ih12 ih23 =>
    intro nam
    have hval2 : ∀ x ∈ _, matchesIdentifierPrefix x = true :=
      fun x hx => hval x (h12.mem_iff.mpr hx)
    have hinj2 : ∀ a ∈ _, ∀ b ∈ _, Naming.camel_case a = Naming.camel_case b → a = b :=
      fun a ha b hb => hinj a (h12.mem_iff.mpr ha) b (h12.mem_iff.mpr hb)
    exact AEquiv_trans (ih12 hval hinj nam) (ih23 hval2 hinj2 nam)

theorem resolveEntryV_fold_stable {names : List Str} {n : Str}
    (hn : matchesIdentifierPrefix n = true)
    (hval : ∀ x ∈ names, matchesIdentifierPrefix x = true)
    (hinj : ∀ x ∈ names, Naming.camel_case x = Naming.camel_case n → x = n) :
    ∀ nam, resolveEntryV (updNamingsFold nam names) n = resolveEntryV nam n := by
  induction names with
  | nil =>
    intro nam
    rfl
  | cons x rest ih =>
    intro nam
    have hstep : resolveEntryV (updNamings nam x) n = resolveEntryV nam n :=
      resolveEntryV_stable (hval x (by simp)) hn (hinj x (by simp))
    have := ih (fun z hz => hval z (List.mem_cons_of_mem x hz))
      (fun z hz => hinj z (List.mem_cons_of_mem x hz)) (updNamings nam x)
    exact this.trans hstep

/-- One adjacency update of `_connect`: append the sink to the source's list. -/
def propsStep (p : List (Str × PropertyList)) (key : Str) (ent : Entry) :
    List (Str × PropertyList) :=
  insertA key (((lookupA key p).getD ⟨[]⟩).add ent) p

def OptPLEquiv : Option PropertyList → Option PropertyList → Prop
  | none, none => True
  | some a, some b => ∀ x, x ∈ a.elems ↔ x ∈ b.elems
  | _, _ => False

def PropsEquiv (p1 p2 : List (Str × PropertyList)) : Prop :=
  (p1.map Prod.fst).Perm (p2.map Prod.fst) ∧ ∀ k, OptPLEquiv (lookupA k p1) (lookupA k p2)

theorem PropsEquiv_refl (p : List (Str × PropertyList)) : PropsEquiv p p := by
  refine ⟨List.Perm.refl _, fun k => ?_⟩
  rcases lookupA k p with _ | a
  · trivial
  · intro x
    rfl

theorem PropsEquiv_trans {p1 p2 p3 : List (Str × PropertyList)}
    (h1 : PropsEquiv p1 p2) (h2 : PropsEquiv p2 p3) : PropsEquiv p1 p3 := by
  refine ⟨h1.1.trans h2.1, fun k => ?_⟩
  have a1 := h1.2 k
  have a2 := h2.2 k
  rcases hx : lookupA k p1 with _ | x <;> rcases hy : lookupA k p2 with _ | y <;>
    rcases hz : lookupA k p3 with _ | z <;>
    rw [hx, hy] at a1 <;> rw [hy, hz] at a2 <;>
    simp only [OptPLEquiv] at a1 a2 ⊢
  intro w
  exact (a1 w).trans (a2 w)

theorem PropsEquiv.isSome_eq {p1 p2 : List (Str × PropertyList)}
    (h : PropsEquiv p1 p2) (k : Str) :
    (lookupA k p1).isSome = (lookupA k p2).isSome := by
  have hthis := h.2 k
  rcases e1 : lookupA k p1 with _ | a <;> rcases e2 : lookupA k p2 with _ | b <;>
    rw [e1, e2] at hthis <;> simp only [OptPLEquiv] at hthis <;> rfl

theorem add_mem_iff (pl : PropertyList) (e x : Entry) :
    x ∈ (pl.add e).elems ↔
      x ∈ pl.elems ∨ (x = e ∧ e.class_name ∉ pl.elems.map Entry.class_name) := by
  unfold PropertyList.add
  by_cases h : pl.elems.any (fun y => y.class_name = e.class_name)
  · rw [if_pos h]
    simp only [List.any_eq_true, decide_eq_true_eq] at h
    obtain ⟨y, hy, hye⟩ := h
    constructor
    · intro hm
      exact Or.inl hm
    · rintro (hm | ⟨rfl, hnot⟩)
      · exact hm
      · exact absurd (List.mem_map.mpr ⟨y, hy, hye⟩) hnot
  · rw [if_neg h]
    simp only [List.any_eq_true, decide_eq_true_eq] at h
    push_neg at h
    constructor
    · intro hm
      rcases List.mem_append.mp hm with hm | hm
      · exact Or.inl hm
      · rw [List.mem_singleton] at hm
        subst hm
        refine Or.inr ⟨rfl, ?_⟩
        intro hc
        obtain ⟨y, hy, hye⟩ := List.mem_map.mp hc
        exact h y hy hye
    · rintro (hm | ⟨rfl, -⟩)
      · exact List.mem_append_left _ hm
      · exact List.mem_append_right _ (List.mem_singleton.mpr rfl)

theorem add_memequiv {a b : PropertyList} (h : ∀ x, x ∈ a.elems ↔ x ∈ b.elems)
    (e : Entry) : ∀ x, x ∈ (a.add e).elems ↔ x ∈ (b.add e).elems := by
  intro x
  rw [add_mem_iff, add_mem_iff]
  have hcn : e.class_name ∈ a.elems.map Entry.class_name ↔
      e.class_name ∈ b.elems.map Entry.class_name := by
    constructor
    · intro hm
      obtain ⟨y, hy, hye⟩ := List.mem_map.mp hm
      exact List.mem_map.mpr ⟨y, (h y).mp hy, hye⟩
    · intro hm
      obtain ⟨y, hy, hye⟩ := List.mem_map.mp hm
      exact List.mem_map.mpr ⟨y, (h y).mpr hy, hye⟩
  rw [h x]
  constructor
  · rintro (hm | ⟨rfl, hnot⟩)
    · exact Or.inl hm
    · exact Or.inr ⟨rfl, fun hc => hnot (hcn.mpr hc)⟩
  · rintro (hm | ⟨rfl, hnot⟩)
    · exact Or.inl hm
    · exact Or.inr ⟨rfl, fun hc => hnot (hcn.mp hc)⟩

theorem propsStep_congr {p1 p2 : List (Str × PropertyList)} (h : PropsEquiv p1 p2)
    (k : Str) (e : Entry) : PropsEquiv (propsStep p1 k e) (propsStep p2 k e) := by
  have hv : ∀ x, x ∈ (((lookupA k p1).getD ⟨[]⟩).add e).elems ↔
      x ∈ (((lookupA k p2).getD ⟨[]⟩).add e).elems := by
    have hk := h.2 k
    rcases h1 : lookupA k p1 with _ | a <;> rcases h2 : lookupA k p2 with _ | b <;>
      rw [h1, h2] at hk
    · intro x
      rfl
    · simp only [OptPLEquiv] at hk
    · simp only [OptPLEquiv] at hk
    · simp only [OptPLEquiv] at hk
      simp only [Option.getD_some]
      exact add_memequiv hk e
  constructor
  · unfold propsStep
    rw [keys_insertA, keys_insertA]
    by_cases hk : k ∈ p1.map Prod.fst
    · have hk2 : k ∈ p2.map Prod.fst := by
        rw [← lookupA_isSome_iff_mem_keys] at hk ⊢
        rw [← h.isSome_eq k]
        exact hk
      rw [if_pos hk, if_pos hk2]
      exact h.1
    · have hk2 : k ∉ p2.map Prod.fst := by
        rw [← lookupA_isSome_iff_mem_keys] at hk ⊢
        rw [← h.isSome_eq k]
        exact hk
      rw [if_neg hk, if_neg hk2]
      exact h.1.append (List.Perm.refl _)
  · intro k2
    unfold propsStep
    rw [lookupA_insertA, lookupA_insertA]
    by_cases hkk : k = k2
    · rw [if_pos hkk, if_pos hkk]
      exact hv
    · rw [if_neg hkk, if_neg hkk]
      exact h.2 k2

theorem OptPLEquiv_refl (o : Option PropertyList) : OptPLEquiv o o := by
  rcases o with _ | a
  · trivial
  · intro x
    exact Iff.rfl

theorem keys_propsStep (p : List (Str × PropertyList)) (k : Str) (e : Entry) :
    (propsStep p k e).map Prod.fst =
      if k ∈ p.map Prod.fst then p.map Prod.fst else p.map Prod.fst ++ [k] := by
  unfold propsStep
  exact keys_insertA _ _ _

theorem lookupA_propsStep (p : List (Str × PropertyList)) (k q : Str) (e : Entry) :
    lookupA q (propsStep p k e) =
      if k = q then some (((lookupA k p).getD ⟨[]⟩).add e) else lookupA q p := by
  unfold propsStep
  exact lookupA_insertA _ _ _ _

theorem mem_keys_propsStep (p : List (Str × PropertyList)) (k : Str) (e : Entry) :
    k ∈ (propsStep p k e).map Prod.fst := by
  rw [← lookupA_isSome_iff_mem_keys, lookupA_propsStep, if_pos rfl]
  rfl

theorem mem_keys_insertA_other {β : Type} {k q : Str} (v : β) (l : List (Str × β))
    (hne : k ≠ q) : q ∈ (insertA k v l).map Prod.fst ↔ q ∈ l.map Prod.fst := by
  rw [keys_insertA]
  by_cases h : k ∈ l.map Prod.fst
  · rw [if_pos h]
  · rw [if_neg h]
    constructor
    · intro hq
      rcases List.mem_append.mp hq with h1 | h1
      · exact h1
      · exact absurd (List.mem_singleton.mp h1).symm hne
    · intro h1
      exact List.mem_append_left _ h1

/-- Two `set.add` calls on the same `PropertyList` commute up to membership
when equal class names force equal entries. -/
theorem add_add_mem_comm (pl : PropertyList) (e1 e2 : Entry)
    (hcn : e1.class_name = e2.class_name → e1 = e2) :
    ∀ x, x ∈ ((pl.add e1).add e2).elems ↔ x ∈ ((pl.add e2).add e1).elems := by
  intro x
  by_cases hc : e1.class_name = e2.class_name
  · rw [hcn hc]
  · have h21 : ¬ (e2.class_name = e1.class_name) := fun h => hc h.symm
    rw [add_mem_iff, add_mem_iff, add_mem_iff, add_mem_iff]
    rw [add_class_names_mem, add_class_names_mem]
    tauto

/-- Two `propsStep`s commute up to the adjacency equivalence when equal class
names force equal inserted entries. -/
theorem propsStep_comm (p : List (Str × PropertyList)) (k1 k2 : Str) (e1 e2 : Entry)
    (hcn : e1.class_name = e2.class_name → e1 = e2) :
    PropsEquiv (propsStep (propsStep p k1 e1) k2 e2)
      (propsStep (propsStep p k2 e2) k1 e1) := by
  by_cases hk : k1 = k2
  · subst hk
    constructor
    · rw [keys_propsStep (propsStep p k1 e1), keys_propsStep (propsStep p k1 e2)]
      rw [if_pos (mem_keys_propsStep p k1 e1), if_pos (mem_keys_propsStep p k1 e2)]
      rw [keys_propsStep, keys_propsStep]
    · intro q
      by_cases hq : k1 = q
      · subst hq
        rw [lookupA_propsStep (propsStep p k1 e1) k1 k1 e2,
            lookupA_propsStep (propsStep p k1 e2) k1 k1 e1,
            if_pos rfl, if_pos rfl,
            lookupA_propsStep p k1 k1 e1, lookupA_propsStep p k1 k1 e2,
            if_pos rfl, if_pos rfl]
        simp only [Option.getD_some]
        exact add_add_mem_comm _ e1 e2 hcn
      · rw [lookupA_propsStep (propsStep p k1 e1) k1 q e2,
            lookupA_propsStep (propsStep p k1 e2) k1 q e1,
            if_neg hq, if_neg hq,
            lookupA_propsStep p k1 q e1, lookupA_propsStep p k1 q e2,
            if_neg hq, if_neg hq]
        exact OptPLEquiv_refl _
  · constructor
    · have hmem1 : k2 ∈ (propsStep p k1 e1).map Prod.fst ↔ k2 ∈ p.map Prod.fst := by
        unfold propsStep
        exact mem_keys_insertA_other _ _ hk
      have hmem2 : k1 ∈ (propsStep p k2 e2).map Prod.fst ↔ k1 ∈ p.map Prod.fst := by
        unfold propsStep
        exact mem_keys_insertA_other _ _ (fun h => hk h.symm)
      rw [keys_propsStep (propsStep p k1 e1), keys_propsStep (propsStep p k2 e2)]
      by_cases h1 : k1 ∈ p.map Prod.fst <;> by_cases h2 : k2 ∈ p.map Prod.fst
      · rw [if_pos (hmem1.mpr h2), if_pos (hmem2.mpr h1)]
        rw [keys_propsStep, keys_propsStep, if_pos h1, if_pos h2]
      · rw [if_neg (fun hx => h2 (hmem1.mp hx)), if_pos (hmem2.mpr h1)]
        rw [keys_propsStep, keys_propsStep, if_pos h1, if_neg h2]
      · rw [if_pos (hmem1.mpr h2), if_neg (fun hx => h1 (hmem2.mp hx))]
        rw [keys_propsStep, keys_propsStep, if_neg h1, if_pos h2]
      · rw [if_neg (fun hx => h2 (hmem1.mp hx)), if_neg (fun hx => h1 (hmem2.mp hx))]
        rw [keys_propsStep, keys_propsStep, if_neg h1, if_neg h2]
        exact perm_snoc_snoc _ _ _
    · intro q
      by_cases hq2 : k2 = q <;> by_cases hq1 : k1 = q
      · exact absurd (hq1.trans hq2.symm) hk
      · subst hq2
        rw [lookupA_propsStep (propsStep p k1 e1) k2 k2 e2,
            lookupA_propsStep (propsStep p k2 e2) k1 k2 e1,
            if_pos rfl, if_neg hq1,
            lookupA_propsStep p k1 k2 e1, if_neg hk,
            lookupA_propsStep p k2 k2 e2, if_pos rfl]
        exact OptPLEquiv_refl _
      · subst hq1
        rw [lookupA_propsStep (propsStep p k1 e1) k2 k1 e2,
            lookupA_propsStep (propsStep p k2 e2) k1 k1 e1,
            if_neg hq2, if_pos rfl,
            lookupA_propsStep p k1 k1 e1, if_pos rfl,
            lookupA_propsStep p k2 k1 e2, if_neg hq2]
        exact OptPLEquiv_refl _
      · rw [lookupA_propsStep (propsStep p k1 e1) k2 q e2,
            lookupA_propsStep (propsStep p k2 e2) k1 q e1,
            if_neg hq2, if_neg hq1,
            lookupA_propsStep p k1 q e1, if_neg hq1,
            lookupA_propsStep p k2 q e2, if_neg hq2]
        exact OptPLEquiv_refl _

instance instIsTotalStrLe : IsTotal Str (fun a b => a ≤ b) :=
  ⟨fun x y => le_total x y⟩

instance instIsTransStrLe : IsTrans Str (fun a b => a ≤ b) :=
  ⟨fun _ _ _ h1 h2 => le_trans h1 h2⟩

instance instIsAntisymmStrLe : IsAntisymm Str (fun a b => a ≤ b) :=
  ⟨fun _ _ h1 h2 => le_antisymm h1 h2⟩

theorem sortStr_eq_of_perm {l1 l2 : List Str} (h : l1.Perm l2) : sortStr l1 = sortStr l2 := by
  unfold sortStr
  exact @List.eq_of_perm_of_sorted Str (fun a b => a ≤ b) instIsAntisymmStrLe _ _
    ((List.perm_insertionSort _ l1).trans (h.trans (List.perm_insertionSort _ l2).symm))
    (List.sorted_insertionSort _ l1)
    (List.sorted_insertionSort _ l2)

/-- The endpoint names an edge sequence mentions, in processing order. -/
def edgeNames (edges : List (Str × Str)) : List Str :=
  (edges.map fun e => [e.1, e.2]).flatten

theorem edgeNames_cons (e : Str × Str) (rest : List (Str × Str)) :
    edgeNames (e :: rest) = e.1 :: e.2 :: edgeNames rest := rfl

theorem edgeNames_perm {edges1 edges2 : List (Str × Str)} (h : edges1.Perm edges2) :
    (edgeNames edges1).Perm (edgeNames edges2) :=
  (h.map _).flatten

theorem mem_edgeNames_tail {a : Str} {x : Str × Str} {l : List (Str × Str)}
    (h : a ∈ edgeNames l) : a ∈ edgeNames (x :: l) := by
  rw [edgeNames_cons]
  exact List.mem_cons_of_mem _ (List.mem_cons_of_mem _ h)

/-- The pure effect on the adjacency dictionary of one evaluation pass whose
endpoint resolution is the fixed function `r`: one `propsStep` per edge. -/
def propsFoldR (r : Str → Entry) (p : List (Str × PropertyList))
    (edges : List (Str × Str)) : List (Str × PropertyList) :=
  edges.foldl (fun q e => propsStep q (r e.1).class_name (r e.2)) p

theorem propsFoldR_congr (r : Str → Entry) (edges : List (Str × Str)) :
    ∀ {p1 p2 : List (Str × PropertyList)}, PropsEquiv p1 p2 →
      PropsEquiv (propsFoldR r p1 edges) (propsFoldR r p2 edges) := by
  induction edges with
  | nil =>
    intro p1 p2 h
    exact h
  | cons e rest ih =>
    intro p1 p2 h
    exact ih (propsStep_congr h (r e.1).class_name (r e.2))

/-- Permutation invariance of the adjacency updates: when the resolved entries
of the endpoint names are injective on their class names, any two orders of
the same multiset of edges produce equivalent adjacency dictionaries. -/
theorem propsFoldR_perm (r : Str → Entry) {edges1 edges2 : List (Str × Str)}
    (hperm : edges1.Perm edges2)
    (hinj : ∀ x ∈ edgeNames edges1, ∀ y ∈ edgeNames edges1,
      (r x).class_name = (r y).class_name → r x = r y) :
    ∀ p, PropsEquiv (propsFoldR r p edges1) (propsFoldR r p edges2) := by
  induction hperm with
  | nil =>
    intro p
    exact PropsEquiv_refl _
  | cons x l ih =>
    intro p
    have hinj' : ∀ a ∈ edgeNames _, ∀ b ∈ edgeNames _,
        (r a).class_name = (r b).class_name → r a = r b :=
      fun a ha b hb => hinj a (mem_edgeNames_tail ha) b (mem_edgeNames_tail hb)
    exact ih hinj' (propsStep p (r x.1).class_name (r x.2))
  | swap x y l =>
    intro p
    have hcn : (r y.2).class_name = (r x.2).class_name → r y.2 = r x.2 :=
      hinj y.2 (by simp [edgeNames_cons]) x.2 (by simp [edgeNames_cons])
    exact propsFoldR_congr r l
      (propsStep_comm p (r y.1).class_name (r x.1).class_name (r y.2) (r x.2) hcn)
  | trans h12 h23 ih12 ih23 =>
    intro p
    have hinj2 : ∀ a ∈ edgeNames _, ∀ b ∈ edgeNames _,
        (r a).class_name = (r b).class_name → r a = r b :=
      fun a ha b hb => hinj a ((edgeNames_perm h12).mem_iff.mpr ha)
        b ((edgeNames_perm h12).mem_iff.mpr hb)
    exact PropsEquiv_trans (ih12 hinj p) (ih23 hinj2 p)

/-- Every adjacency list stored in the dictionary has pairwise distinct member
class names. -/
def PropsWF (p : List (Str × PropertyList)) : Prop :=
  ∀ k pl, lookupA k p = some pl → (pl.elems.map Entry.class_name).Nodup

theorem propsStep_wf {p : List (Str × PropertyList)} (hw : PropsWF p) (k : Str) (e : Entry) :
    PropsWF (propsStep p k e) := by
  intro q pl hq
  rw [lookupA_propsStep] at hq
  by_cases hk : k = q
  · rw [if_pos hk] at hq
    obtain rfl : ((lookupA k p).getD ⟨[]⟩).add e = pl := Option.some.inj hq
    apply add_class_names_nodup
    rcases hl : lookupA k p with _ | pl0
    · simp
    · simpa using hw k pl0 hl
  · rw [if_neg hk] at hq
    exact hw q pl hq

theorem propsFoldR_wf (r : Str → Entry) (edges : List (Str × Str)) :
    ∀ {p}, PropsWF p → PropsWF (propsFoldR r p edges) := by
  induction edges with
  | nil =>
    intro p h
    exact h
  | cons e rest ih =>
    intro p h
    exact ih (propsStep_wf h (r e.1).class_name (r e.2))

theorem entry_naming_class_name (n : Naming) :
    (Entry.naming n).class_name = n.class_name := rfl

/-- With every stored entry keyed by its own class name, class-name equality
of two resolved entries (for valid, camel-injective names) forces the resolved
entries to coincide. -/
theorem resolve_cn_inj {nam : List (Str × Entry)}
    (hkc : ∀ k e, lookupA k nam = some e → e.class_name = k)
    {x y : Str} (hx : matchesIdentifierPrefix x = true)
    (hy : matchesIdentifierPrefix y = true)
    (hcam : Naming.camel_case x = Naming.camel_case y → x = y)
    (hcn : (resolveEntryV nam x).class_name = (resolveEntryV nam y).class_name) :
    resolveEntryV nam x = resolveEntryV nam y := by
  unfold resolveEntryV at hcn ⊢
  rcases h1 : lookupA x nam with _ | ex <;> rcases h2 : lookupA y nam with _ | ey
  · rcases h3 : lookupA (Naming.camel_case x) nam with _ | cx <;>
      rcases h4 : lookupA (Naming.camel_case y) nam with _ | cy <;>
      simp only [h1, h2, h3, h4] at hcn ⊢
    · simp only [entry_naming_class_name, mkNaming_class_name] at hcn
      rw [hcam hcn]
    · have hcy : cy.class_name = Naming.camel_case y := hkc _ _ h4
      simp only [entry_naming_class_name, mkNaming_class_name, hcy] at hcn
      have hxy : x = y := hcam hcn
      subst hxy
      rw [h3] at h4
      cases h4
    · have hcx : cx.class_name = Naming.camel_case x := hkc _ _ h3
      simp only [entry_naming_class_name, mkNaming_class_name, hcx] at hcn
      have hxy : x = y := hcam hcn
      subst hxy
      rw [h3] at h4
      cases h4
    · have hcx : cx.class_name = Naming.camel_case x := hkc _ _ h3
      have hcy : cy.class_name = Naming.camel_case y := hkc _ _ h4
      rw [hcx, hcy] at hcn
      have hxy : x = y := hcam hcn
      subst hxy
      rw [h3] at h4
      exact Option.some.inj h4
  · rcases h3 : lookupA (Naming.camel_case x) nam with _ | cx <;>
      simp only [h1, h2, h3] at hcn ⊢
    · have hey : ey.class_name = y := hkc _ _ h2
      simp only [entry_naming_class_name, mkNaming_class_name, hey] at hcn
      exact absurd hcn (camel_ne_valid hx hy)
    · have hcx : cx.class_name = Naming.camel_case x := hkc _ _ h3
      have hey : ey.class_name = y := hkc _ _ h2
      rw [hcx, hey] at hcn
      exact absurd hcn (camel_ne_valid hx hy)
  · rcases h4 : lookupA (Naming.camel_case y) nam with _ | cy <;>
      simp only [h1, h2, h4] at hcn ⊢
    · have hex : ex.class_name = x := hkc _ _ h1
      simp only [entry_naming_class_name, mkNaming_class_name, hex] at hcn
      exact absurd hcn.symm (camel_ne_valid hy hx)
    · have hex : ex.class_name = x := hkc _ _ h1
      have hcy : cy.class_name = Naming.camel_case y := hkc _ _ h4
      rw [hex, hcy] at hcn
      exact absurd hcn.symm (camel_ne_valid hy hx)
  · have hex : ex.class_name = x := hkc _ _ h1
    have hey : ey.class_name = y := hkc _ _ h2
    simp only [h1, h2] at hcn ⊢
    rw [hex, hey] at hcn
    subst hcn
    rw [h1] at h2
    exact Option.some.inj h2

theorem updNamingsFold_append (nam : List (Str × Entry)) (ns1 ns2 : List Str) :
    updNamingsFold nam (ns1 ++ ns2) = updNamingsFold (updNamingsFold nam ns1) ns2 := by
  unfold updNamingsFold
  rw [List.foldl_append]

/-- `_connect` on valid endpoint names: both `_update_naming` calls succeed,
the namings dictionary receives both updates, and the adjacency dictionary
receives the sink entry under the source entry's class name. -/
theorem connect_ok_of_valid (p : List (Str × PropertyList)) (nam : List (Str × Entry))
    {s t : Str} (hs : matchesIdentifierPrefix s = true)
    (ht : matchesIdentifierPrefix t = true) :
    PropertyGraph.connect ⟨p, nam⟩ s t = .ok
      ⟨propsStep p (resolveEntryV nam s).class_name (resolveEntryV (updNamings nam s) t),
       updNamings (updNamings nam s) t⟩ := by
  have h1 := @update_naming_ok_of_valid ⟨p, nam⟩ s hs
  have h2 := @update_naming_ok_of_valid ⟨p, updNamings nam s⟩ t ht
  simp only [PropertyGraph.connect, h1, h2, propsStep]

theorem runEdges_cons_ok {g g2 : PropertyGraph} {s t : Str} {rest : List (Str × Str)}
    (h : g.connect s t = .ok g2) :
    g.runEdges ((s, t) :: rest) = g2.runEdges rest := by
  simp only [PropertyGraph.runEdges, h]

/-- Decomposition of one evaluation pass on valid, camel-injective edge names:
no validation error is raised, the namings dictionary receives the fold of the
endpoint-name updates, and the adjacency dictionary receives one `propsStep`
per edge with both endpoints resolved against the initial dictionary. -/
theorem runEdges_decomp (nam0 : List (Str × Entry)) :
    ∀ (edges : List (Str × Str)) (past : List Str) (p : List (Str × PropertyList)),
    (∀ n ∈ past ++ edgeNames edges, matchesIdentifierPrefix n = true) →
    (∀ x ∈ past ++ edgeNames edges, ∀ y ∈ past ++ edgeNames edges,
      Naming.camel_case x = Naming.camel_case y → x = y) →
    PropertyGraph.runEdges ⟨p, updNamingsFold nam0 past⟩ edges =
      .ok ⟨propsFoldR (resolveEntryV nam0) p edges,
        updNamingsFold nam0 (past ++ edgeNames edges)⟩ := by
  intro edges
  induction edges with
  | nil =>
    intro past p _ _
    simp [PropertyGraph.runEdges, propsFoldR, edgeNames]
  | cons e rest ih =>
    intro past p hval hinj
    obtain ⟨s, t⟩ := e
    have hs : matchesIdentifierPrefix s = true := hval s (by simp [edgeNames_cons])
    have ht : matchesIdentifierPrefix t = true := hval t (by simp [edgeNames_cons])
    have hpastval : ∀ n ∈ past, matchesIdentifierPrefix n = true :=
      fun n hn => hval n (List.mem_append_left _ hn)
    have hress : resolveEntryV (updNamingsFold nam0 past) s = resolveEntryV nam0 s :=
      resolveEntryV_fold_stable hs hpastval
        (fun z hz hcz => hinj z (List.mem_append_left _ hz) s (by simp [edgeNames_cons]) hcz)
        nam0
    have hrest : resolveEntryV (updNamingsFold nam0 (past ++ [s])) t =
        resolveEntryV nam0 t := by
      refine resolveEntryV_fold_stable ht ?_ ?_ nam0
      · intro z hz
        rcases List.mem_append.mp hz with hz | hz
        · exact hpastval z hz
        · rw [List.mem_singleton] at hz
          subst hz
          exact hs
      · intro z hz hcz
        have hzm : z ∈ past ++ edgeNames ((s, t) :: rest) := by
          rcases List.mem_append.mp hz with hz | hz
          · exact List.mem_append_left _ hz
          · rw [List.mem_singleton] at hz
            subst hz
            simp [edgeNames_cons]
        exact hinj z hzm t (by simp [edgeNames_cons]) hcz
    have hnam1 : updNamings (updNamingsFold nam0 past) s =
        updNamingsFold nam0 (past ++ [s]) := (updNamingsFold_append nam0 past [s]).symm
    have hnam2 : updNamings (updNamingsFold nam0 (past ++ [s])) t =
        updNamingsFold nam0 ((past ++ [s]) ++ [t]) :=
      (updNamingsFold_append nam0 (past ++ [s]) [t]).symm
    have hpst : (past ++ [s]) ++ [t] = past ++ [s, t] := by simp
    have hcon := connect_ok_of_valid p (updNamingsFold nam0 past) hs ht
    rw [hnam1] at hcon
    rw [hrest] at hcon
    rw [hnam2] at hcon
    rw [hpst] at hcon
    rw [hress] at hcon
    have hlist : (past ++ [s, t]) ++ edgeNames rest = past ++ edgeNames ((s, t) :: rest) := by
      simp [edgeNames_cons]
    have hval' : ∀ n ∈ (past ++ [s, t]) ++ edgeNames rest,
        matchesIdentifierPrefix n = true := by
      rw [hlist]
      exact hval
    have hinj' : ∀ x ∈ (past ++ [s, t]) ++ edgeNames rest,
        ∀ y ∈ (past ++ [s, t]) ++ edgeNames rest,
        Naming.camel_case x = Naming.camel_case y → x = y := by
      rw [hlist]
      exact hinj
    have hih := ih (past ++ [s, t])
      (propsStep p (resolveEntryV nam0 s).class_name (resolveEntryV nam0 t)) hval' hinj'
    rw [runEdges_cons_ok hcon, hih, hlist]
    rfl

theorem filterMap_congr_aux {α β : Type} (f g : α → Option β) :
    ∀ l : List α, (∀ x ∈ l, f x = g x) → l.filterMap f = l.filterMap g := by
  intro l
  induction l with
  | nil =>
    intro _
    rfl
  | cons a tl ih =>
    intro h
    rw [List.filterMap_cons, List.filterMap_cons, h a (by simp),
      ih (fun x hx => h x (List.mem_cons_of_mem a hx))]

/-- Two member-equivalent `PropertyList`s with duplicate-free class names have
the same sorted iteration. -/
theorem properties_eq_of_memequiv {pl1 pl2 : PropertyList}
    (h : ∀ x, x ∈ pl1.elems ↔ x ∈ pl2.elems)
    (h1 : (pl1.elems.map Entry.class_name).Nodup)
    (h2 : (pl2.elems.map Entry.class_name).Nodup) :
    pl1.properties = pl2.properties := by
  apply sortedStrictExt Entry.class_name
  · exact pairwise_lt_of_le_nodup Entry.class_name _ (sortByClassName_sorted _)
      (((sortByClassName_perm pl1.elems).map Entry.class_name).nodup_iff.mpr h1)
  · exact pairwise_lt_of_le_nodup Entry.class_name _ (sortByClassName_sorted _)
      (((sortByClassName_perm pl2.elems).map Entry.class_name).nodup_iff.mpr h2)
  · intro x
    exact ((sortByClassName_perm pl1.elems).mem_iff).trans
      ((h x).trans ((sortByClassName_perm pl2.elems).mem_iff).symm)

theorem np_properties_congr {n : Entry} {o1 o2 : Option PropertyList}
    (h : OptPLEquiv o1 o2)
    (w1 : ∀ pl, o1 = some pl → (pl.elems.map Entry.class_name).Nodup)
    (w2 : ∀ pl, o2 = some pl → (pl.elems.map Entry.class_name).Nodup) :
    NamedProperty.properties ⟨n, o1⟩ = NamedProperty.properties ⟨n, o2⟩ := by
  rcases o1 with _ | pl1 <;> rcases o2 with _ | pl2 <;> simp only [OptPLEquiv] at h
  · rfl
  · show pl1.properties = pl2.properties
    exact properties_eq_of_memequiv h (w1 pl1 rfl) (w2 pl2 rfl)

/-- The canonical node sequence is observationally invariant under the naming
and adjacency equivalences, given duplicate-free adjacency members. -/
theorem propertiesList_observe_congr
    {p1 p2 : List (Str × PropertyList)} {nam1 nam2 : List (Str × Entry)}
    (hA : AEquiv nam1 nam2) (hP : PropsEquiv p1 p2)
    (hw1 : PropsWF p1) (hw2 : PropsWF p2) :
    observeProperties (PropertyGraph.propertiesList ⟨p1, nam1⟩) =
      observeProperties (PropertyGraph.propertiesList ⟨p2, nam2⟩) := by
  simp only [PropertyGraph.propertiesList, observeProperties, List.map_filterMap]
  rw [sortStr_eq_of_perm hA.1]
  apply filterMap_congr_aux
  intro cn _
  rw [hA.2 cn]
  rcases hn : lookupA cn nam2 with _ | naming <;> simp only [hn]
  by_cases hpl : naming.isPlainTypeDescriptor
  · rw [if_pos hpl, if_pos hpl]
  · rw [if_neg hpl, if_neg hpl]
    show some (naming, NamedProperty.properties ⟨naming, lookupA cn p1⟩) =
      some (naming, NamedProperty.properties ⟨naming, lookupA cn p2⟩)
    rw [np_properties_congr (hP.2 cn) (fun pl hpl2 => hw1 cn pl hpl2)
      (fun pl hpl2 => hw2 cn pl hpl2)]

theorem get_properties_from_ok_of_run {g g2 : PropertyGraph} {edges : List (Str × Str)}
    (h : g.runEdges edges = .ok g2) :
    g.get_properties_from edges = .ok (g2, g2.propertiesList) := by
  rw [get_properties_from_eq, h]

/-- Claim C5 (amended): for terms the algebra considers equal (same edge set),
running evaluate-and-collect from the same graph state yields observationally
identical node sequences — same node order and same per-node sub-property
order — provided the edge names are valid identifiers whose camel-cased class
names do not collide (the counterexample shows the claim fails without this),
and the starting graph satisfies the representation invariants the factories
maintain: every stored naming is keyed by its own class name, and every stored
adjacency list is duplicate-free by class name. -/
theorem claim_C5_amended_observable_equality
    (g : PropertyGraph) (t1 t2 : Term)
    (halg : Term.algebraEq t1 t2)
    (hval : ∀ n ∈ edgeNames t1.evalEdges, matchesIdentifierPrefix n = true)
    (hinj : ∀ x ∈ edgeNames t1.evalEdges, ∀ y ∈ edgeNames t1.evalEdges,
      Naming.camel_case x = Naming.camel_case y → x = y)
    (hkc : ∀ k e, lookupA k g.namings_by_class_name = some e → e.class_name = k)
    (hwf : PropsWF g.properties_by_class_name) :
    outputObserved (g.get_properties_from_term t1) =
      outputObserved (g.get_properties_from_term t2) := by
  have hperm : t1.evalEdges.Perm t2.evalEdges := evalEdges_perm_of_algebraEq halg
  have hnp : (edgeNames t1.evalEdges).Perm (edgeNames t2.evalEdges) := edgeNames_perm hperm
  have hval2 : ∀ n ∈ edgeNames t2.evalEdges, matchesIdentifierPrefix n = true :=
    fun n hn => hval n (hnp.mem_iff.mpr hn)
  have hinj2 : ∀ x ∈ edgeNames t2.evalEdges, ∀ y ∈ edgeNames t2.evalEdges,
      Naming.camel_case x = Naming.camel_case y → x = y :=
    fun x hx y hy => hinj x (hnp.mem_iff.mpr hx) y (hnp.mem_iff.mpr hy)
  have hd1 : g.runEdges t1.evalEdges = .ok
      ⟨propsFoldR (resolveEntryV g.namings_by_class_name) g.properties_by_class_name
        t1.evalEdges,
       updNamingsFold g.namings_by_class_name (edgeNames t1.evalEdges)⟩ :=
    runEdges_decomp g.namings_by_class_name t1.evalEdges [] g.properties_by_class_name
      hval hinj
  have hd2 : g.runEdges t2.evalEdges = .ok
      ⟨propsFoldR (resolveEntryV g.namings_by_class_name) g.properties_by_class_name
        t2.evalEdges,
       updNamingsFold g.namings_by_class_name (edgeNames t2.evalEdges)⟩ :=
    runEdges_decomp g.namings_by_class_name t2.evalEdges [] g.properties_by_class_name
      hval2 hinj2
  have e1 : outputObserved (g.get_properties_from_term t1) =
      some (observeProperties (PropertyGraph.propertiesList
        ⟨propsFoldR (resolveEntryV g.namings_by_class_name) g.properties_by_class_name
          t1.evalEdges,
         updNamingsFold g.namings_by_class_name (edgeNames t1.evalEdges)⟩)) := by
    unfold PropertyGraph.get_properties_from_term
    rw [get_properties_from_ok_of_run hd1]
    rfl
  have e2 : outputObserved (g.get_properties_from_term t2) =
      some (observeProperties (PropertyGraph.propertiesList
        ⟨propsFoldR (resolveEntryV g.namings_by_class_name) g.properties_by_class_name
          t2.evalEdges,
         updNamingsFold g.namings_by_class_name (edgeNames t2.evalEdges)⟩)) := by
    unfold PropertyGraph.get_properties_from_term
    rw [get_properties_from_ok_of_run hd2]
    rfl
  rw [e1, e2]
  have hA : AEquiv (updNamingsFold g.namings_by_class_name (edgeNames t1.evalEdges))
      (updNamingsFold g.namings_by_class_name (edgeNames t2.evalEdges)) :=
    updNamingsFold_perm hnp hval hinj g.namings_by_class_name
  have hrinj : ∀ x ∈ edgeNames t1.evalEdges, ∀ y ∈ edgeNames t1.evalEdges,
      (resolveEntryV g.namings_by_class_name x).class_name =
        (resolveEntryV g.namings_by_class_name y).class_name →
      resolveEntryV g.namings_by_class_name x = resolveEntryV g.namings_by_class_name y :=
    fun x hx y hy hc =>
      resolve_cn_inj hkc (hval x hx) (hval y hy) (fun hcc => hinj x hx y hy hcc) hc
  have hP : PropsEquiv
      (propsFoldR (resolveEntryV g.namings_by_class_name) g.properties_by_class_name
        t1.evalEdges)
      (propsFoldR (resolveEntryV g.namings_by_class_name) g.properties_by_class_name
        t2.evalEdges) :=
    propsFoldR_perm (resolveEntryV g.namings_by_class_name) hperm hrinj
      g.properties_by_class_name
  exact congrArg some (propertiesList_observe_congr hA hP
    (propsFoldR_wf _ _ hwf) (propsFoldR_wf _ _ hwf))

def c5wT1 : Term :=
  .prod (.leaf "speed".toList) (.sum (.leaf "distance".toList) (.leaf "duration".toList))

def c5wT2 : Term :=
  .prod (.leaf "speed".toList) (.sum (.leaf "duration".toList) (.leaf "distance".toList))

theorem claim_C5_amended_observable_equality_witness :
    outputObserved (PropertyGraph.cleared.get_properties_from_term c5wT1) =
      outputObserved (PropertyGraph.cleared.get_properties_from_term c5wT2) :=
  claim_C5_amended_observable_equality PropertyGraph.cleared c5wT1 c5wT2
    (by
      have h1 : c5wT1.flow.edges =
          [("speed".toList, "distance".toList), ("speed".toList, "duration".toList)] := by
        decide
      have h2 : c5wT2.flow.edges =
          [("speed".toList, "duration".toList), ("speed".toList, "distance".toList)] := by
        decide
      intro e
      rw [h1, h2]
      simp only [List.mem_cons, List.not_mem_nil, or_false]
      tauto)
    (by decide)
    (by decide)
    (by
      intro k e h
      simp [PropertyGraph.cleared, lookupA] at h)
    (by
      intro k pl h
      simp [PropertyGraph.cleared, lookupA] at h)
